import Mathlib

/-!
Verification of the Minesweeper game-state engine in `src/app.js`
(repository niclad/mynesweeper).

The engine is shallowly embedded: each JavaScript method of the
`Minesweeper` and `Cell` classes becomes a Lean function over an explicit
`Game` state.  JavaScript numbers are `Nat`/`Int`; a field that starts out
as JavaScript `undefined` and is only later assigned (`adjMineCount`)
becomes an `Option Nat`; `Math.random()` draws become an explicit input
stream of coordinates; the unbounded `while` loops (`placeMines`,
`floodFillCells`) are embedded with explicit fuel, returning `none` when
the fuel runs out (for `placeMines` the stream of draws doubles as fuel).

DOM state that the engine itself reads back is modelled per cell:
`cssClosed` records whether the cell element currently carries the
`closed` class token (the win check counts those), and `noClick` records
the `no-click` token added by `onGameOver`.  Transient press visuals
driven by mouse-movement handlers (`Cell.open`/`Cell.close` from
mousedown/mouseenter/mouseleave) are presentation-only and outside the
engine boundary; they are not modelled.  The win check
`document.querySelectorAll(".closed")` scans the whole document, which
also matches the restart button: `buildTimeRow` gives it the class
`cell  game-btn closed` and no code ever removes that token, so the count
it sees is the number of closed board cells plus one.
-/

/-- Faces shown by the time-row control, used here to observe the
game outcome: `cool` is the win face, `dead` the loss face. -/
inductive Face where
  | grin | smile | surprise | cool | dead
deriving DecidableEq, Repr

/-- Session status as the specification names it, derived from the
observable state (`Face` plus the `isRunning` flag). -/
inductive Status where
  | Pending | Running | Won | Lost
deriving DecidableEq, Repr

/-- One board cell (class `Cell` in `app.js`).  `row`/`col` are omitted:
cells are addressed positionally and `createBoard` stores each cell at its
own coordinates, so the queue of cell references in `floodFillCells` is
modelled as a queue of coordinates.  `isMine` starts as JavaScript
`undefined`, which is falsy everywhere it is read, hence `false` here. -/
structure Cell where
  isMine : Bool
  adjMineCount : Option Nat
  isOpen : Bool
  isFlagged : Bool
  cssClosed : Bool
  noClick : Bool
deriving DecidableEq, Repr

/-- The game state (class `Minesweeper` plus the per-session DOM state the
engine reads back).  `numFlags` is an `Int` because the code only ever
increments and decrements it. -/
structure Game where
  rows : Nat
  cols : Nat
  mines : Nat
  board : List (List Cell)
  numFlags : Int
  isRunning : Bool
  face : Face
deriving DecidableEq, Repr

namespace Mynesweeper

/-- Look up the cell at row `r`, column `c` (JavaScript `board[r][c]`,
`undefined` out of range). -/
def cellAt (g : Game) (r c : Nat) : Option Cell :=
  g.board[r]?.bind fun row => row[c]?

/-- Look up with `Int` indices, as the JavaScript loops do: a negative
index reads `undefined`. -/
def intGet (g : Game) (i j : Int) : Option Cell :=
  if 0 ≤ i ∧ 0 ≤ j then cellAt g i.toNat j.toNat else none

/-- Replace the cell at `(r, c)`; identity when no such cell exists. -/
def setCellB (b : List (List Cell)) (r c : Nat) (cell : Cell) :
    List (List Cell) :=
  match b[r]? with
  | none => b
  | some row => b.set r (row.set c cell)

/-- Replace the cell at `(r, c)` inside the game state. -/
def setCellG (g : Game) (r c : Nat) (cell : Cell) : Game :=
  { g with board := setCellB g.board r c cell }

/-- Is the cell at `x` open?  `false` when there is no such cell. -/
def openAt (g : Game) (x : Nat × Nat) : Bool :=
  match cellAt g x.1 x.2 with
  | some cell => cell.isOpen
  | none => false

/-- Is the cell at `x` flagged?  `false` when there is no such cell. -/
def flagAt (g : Game) (x : Nat × Nat) : Bool :=
  match cellAt g x.1 x.2 with
  | some cell => cell.isFlagged
  | none => false

/-- Is the cell at `x` a mine?  `false` when there is no such cell. -/
def mineAt (g : Game) (x : Nat × Nat) : Bool :=
  match cellAt g x.1 x.2 with
  | some cell => cell.isMine
  | none => false

/-- The `adjMineCount` stored at `x` (`none` both for a missing cell and
for the JavaScript `undefined`). -/
def adjAt (g : Game) (x : Nat × Nat) : Option Nat :=
  match cellAt g x.1 x.2 with
  | some cell => cell.adjMineCount
  | none => none

/-- `isInRowLimit` from `app.js`. -/
def isInRowLimit (g : Game) (i : Int) : Prop :=
  0 ≤ i ∧ i < (g.rows : Int)

/-- `isInColLimit` from `app.js`. -/
def isInColLimit (g : Game) (j : Int) : Prop :=
  0 ≤ j ∧ j < (g.cols : Int)

instance (g : Game) (i : Int) : Decidable (isInRowLimit g i) := by
  unfold isInRowLimit; infer_instance

instance (g : Game) (j : Int) : Decidable (isInColLimit g j) := by
  unfold isInColLimit; infer_instance

/-- A fresh cell as the `Cell` constructor makes it; its DOM element was
given the class `cell closed` by `buildBoard`. -/
def initCell : Cell :=
  { isMine := false, adjMineCount := none, isOpen := false,
    isFlagged := false, cssClosed := true, noClick := false }

/-- `createBoard`: a `rows × cols` grid of fresh cells. -/
def createBoard (rows cols : Nat) : List (List Cell) :=
  (List.range rows).map fun _ => (List.range cols).map fun _ => initCell

/-- The game state right after `createBoard`, before `placeMines`. -/
def initGame (rows cols mines : Nat) : Game :=
  { rows := rows, cols := cols, mines := mines,
    board := createBoard rows cols, numFlags := 0,
    isRunning := false, face := .grin }

/-- `Cell.setMine` on the cell at `(r, c)`; `none` models the TypeError
thrown when `board[r][c]` is `undefined`. -/
def setMineAt (g : Game) (r c : Nat) : Option Game :=
  match cellAt g r c with
  | none => none
  | some cell => some (setCellG g r c { cell with isMine := true })

/-- The `placeMines` loop.  `stream` is the sequence of coordinate pairs
produced by the two `Math.floor(Math.random() * …)` draws of each
iteration; one pair is consumed per iteration, so the recursion is
structural on the stream and `none` means the modelled prefix of the
random stream was exhausted before `mines` distinct cells were hit. -/
def placeMinesGo (g : Game) (stream : List (Nat × Nat))
    (placed : List (Nat × Nat)) : Option Game :=
  if placed.length < g.mines then
    match stream with
    | [] => none
    | (r, c) :: rest =>
      if (r, c) ∈ placed then placeMinesGo g rest placed
      else
        match setMineAt g r c with
        | none => none
        | some g1 => placeMinesGo g1 rest (placed ++ [(r, c)])
  else some g

/-- `placeMines` (the loop starts with an empty `minesPlaced` list). -/
def placeMines (g : Game) (stream : List (Nat × Nat)) : Option Game :=
  placeMinesGo g stream []

/-- The three loop indices `x - 1`, `x`, `x + 1`. -/
def threeAround (x : Int) : List Int := [x - 1, x, x + 1]

/-- Truth of `board[i] && board[i][j] && board[i][j].isMine`. -/
def mineAtI (g : Game) (i j : Int) : Bool :=
  match intGet g i j with
  | some cell => cell.isMine
  | none => false

/-- `checkAdjacentMines` exactly as written: the outer loop skips rows
outside the board, and the oddly nested guard
`if (!isInColLimit(j)) if (i === row && j === col) continue;` only skips
the centre when the centre column is out of range.  Out-of-range `j` is
harmless anyway because `board[i][j]` is `undefined` there. -/
def checkAdjacentMines (g : Game) (row col : Int) : Nat :=
  (threeAround row).foldl
    (fun cnt i =>
      if isInRowLimit g i then
        (threeAround col).foldl
          (fun cnt2 j =>
            if ¬ isInColLimit g j ∧ i = row ∧ j = col then cnt2
            else cnt2 + (if mineAtI g i j then 1 else 0))
          cnt
      else cnt)
    0

/-- A structural indexed map (used to model the `setCellVals` iteration,
which visits each cell at its own coordinates). -/
def mapIdxL (f : Nat → α → β) : Nat → List α → List β
  | _, [] => []
  | i, a :: as => f i a :: mapIdxL f (i + 1) as

/-- `setCellVals`: every non-mine cell gets its adjacent-mine count.
`checkAdjacentMines` only reads `isMine`, which the loop never writes, so
reading from the starting state is faithful to the in-place JS loop. -/
def setCellVals (g : Game) : Game :=
  { g with
    board := mapIdxL (fun r row =>
      mapIdxL (fun c cell =>
        if cell.isMine then cell
        else { cell with
               adjMineCount := some (checkAdjacentMines g (r : Int) (c : Int)) })
        0 row) 0 g.board }

/-- The `Minesweeper` constructor: `createBoard`, `placeMines`,
`setCellVals` (the `TimeRow` it also builds is pure presentation). -/
def mkGame (rows cols mines : Nat) (stream : List (Nat × Nat)) :
    Option Game :=
  (placeMines (initGame rows cols mines) stream).map setCellVals

/-- The configuration constraint the specification states for
construction: `rows>0`, `cols>0`, `0<=mineCount<rows*cols`. -/
def validConfig (rows cols mines : Nat) : Prop :=
  0 < rows ∧ 0 < cols ∧ mines < rows * cols

instance (rows cols mines : Nat) : Decidable (validConfig rows cols mines) := by
  unfold validConfig; infer_instance

/-- Number of mines on the board. -/
def countMines (g : Game) : Nat :=
  g.board.foldl (fun acc row => acc + row.countP (·.isMine)) 0

/-- Number of flagged cells on the board. -/
def countFlagged (g : Game) : Nat :=
  g.board.foldl (fun acc row => acc + row.countP (·.isFlagged)) 0

/-- Number of board cells still carrying the `closed` class token. -/
def closedCount (g : Game) : Nat :=
  g.board.foldl (fun acc row => acc + row.countP (·.cssClosed)) 0

/-- Number of cells that are not open (used as a termination measure). -/
def unopenedCount (g : Game) : Nat :=
  g.board.foldl (fun acc row => acc + row.countP (fun c => !c.isOpen)) 0

/-- `checkWin`: `numClosed === this.mines && this.numFlags === this.mines`,
where `numClosed` is `document.querySelectorAll(".closed").length`.  That
query also matches the restart button (class `cell  game-btn closed`,
never removed), hence the `+ 1`. -/
def checkWin (g : Game) : Bool :=
  closedCount g + 1 == g.mines && g.numFlags == (g.mines : Int)

/-- The first half of `onGameOver`: stop the clock and add the `no-click`
class token to every board cell. -/
def noClickAll (g : Game) : Game :=
  { g with isRunning := false,
           board := g.board.map (List.map fun cell =>
             { cell with noClick := true }) }

/-- `onGameOver`: stop the clock, add the `no-click` class token to every
board cell, then show the win face if `checkWin` holds and the loss face
otherwise. -/
def onGameOver (g : Game) : Game :=
  { noClickAll g with
    face := if checkWin (noClickAll g) then .cool else .dead }

/-- `Cell.setOpen()` with the default `isClicked = false`: a flagged cell
is left alone; otherwise the cell becomes open and its class becomes one
of the `cell open …` variants (dropping the `closed` token) whether or not
it is a mine.  No flood fill, mine handling or win check happens on this
path because those are all guarded by `isClicked`. -/
def setOpenQuiet (g : Game) (r c : Nat) : Game :=
  match cellAt g r c with
  | none => g
  | some cell =>
    if cell.isFlagged then g
    else setCellG g r c { cell with isOpen := true, cssClosed := false }

/-- All coordinates of the board, row-major. -/
def allCoords (g : Game) : List (Nat × Nat) :=
  (List.range g.board.length).flatMap fun r =>
    (List.range (g.board[r]?.elim 0 List.length)).map fun c => (r, c)

/-- One cell of the `revealAllMines` sweep. -/
def revealStep (acc : Game) (x : Nat × Nat) : Game :=
  match cellAt acc x.1 x.2 with
  | some cell =>
    if cell.isMine && !cell.isOpen then setOpenQuiet acc x.1 x.2 else acc
  | none => acc

/-- `revealAllMines`: open every unopened mine (flagged mines stay closed
because `setOpen` returns early on them), then `onGameOver`. -/
def revealAllMines (g : Game) : Game :=
  onGameOver ((allCoords g).foldl revealStep g)

/-- The eight neighbour index pairs visited by the flood-fill expansion
loops, in source order, centre excluded. -/
def nineAround (r c : Nat) : List (Int × Int) :=
  [((r : Int) - 1, (c : Int) - 1), ((r : Int) - 1, (c : Int)),
   ((r : Int) - 1, (c : Int) + 1), ((r : Int), (c : Int) - 1),
   ((r : Int), (c : Int) + 1), ((r : Int) + 1, (c : Int) - 1),
   ((r : Int) + 1, (c : Int)), ((r : Int) + 1, (c : Int) + 1)]

/-- The expansion body of `floodFillCells`: every existing, unopened
neighbour is enqueued and `setOpen()`ed (a flagged neighbour is enqueued
but `setOpen` then leaves it closed — the source of the re-enqueueing
bug analysed below). -/
def expandStep (acc : Game × List (Nat × Nat)) (ij : Int × Int) :
    Game × List (Nat × Nat) :=
  match intGet acc.1 ij.1 ij.2 with
  | none => acc
  | some cell =>
    if cell.isOpen then acc
    else (setOpenQuiet acc.1 ij.1.toNat ij.2.toNat,
          acc.2 ++ [(ij.1.toNat, ij.2.toNat)])

def expandNbrs (g : Game) (r c : Nat) : Game × List (Nat × Nat) :=
  (nineAround r c).foldl expandStep (g, [])

/-- The `while (cellQueue.length > 0)` loop of `floodFillCells`.  One unit
of fuel per iteration; `none` when the fuel runs out with a non-empty
queue, and also for the (unreachable in the program) case of a dangling
queue entry, where the JS destructuring would throw.  A dequeued cell with
`adjMineCount > 0` (JS `undefined > 0` is false, hence the `getD 0`) is
opened and not expanded; otherwise its neighbours are processed. -/
def ffGo : Nat → Game → List (Nat × Nat) → Option Game
  | _, g, [] => some g
  | 0, _, _ :: _ => none
  | fuel + 1, g, (r, c) :: rest =>
    match cellAt g r c with
    | none => none
    | some cell =>
      if 0 < cell.adjMineCount.getD 0 then
        ffGo fuel (setOpenQuiet g r c) rest
      else
        let step := expandNbrs g r c
        ffGo fuel step.1 (rest ++ step.2)

/-- `floodFillCells`: the queue starts with the seed cell itself. -/
def floodFillCells (fuel : Nat) (g : Game) (r c : Nat) : Option Game :=
  ffGo fuel g [(r, c)]

/-- `Cell.setOpen(true)`, the player-click open: a flagged cell is left
alone; a mine goes through `handleMine(true)` (class `cell open
bomb-clicked`, then `revealAllMines`, then return — no win check); a
zero-count cell triggers the flood fill; finally `checkWin` may end the
game.  `none` exactly when the flood fill diverges. -/
def setOpenClicked (fuel : Nat) (g : Game) (r c : Nat) : Option Game :=
  match cellAt g r c with
  | none => some g
  | some cell =>
    if cell.isFlagged then some g
    else
      let g1 := setCellG g r c { cell with isOpen := true, cssClosed := false }
      if cell.isMine then some (revealAllMines g1)
      else
        match (if cell.adjMineCount == some 0
               then floodFillCells fuel g1 r c else some g1) with
        | none => none
        | some g2 => some (if checkWin g2 then onGameOver g2 else g2)

/-- `incFlags`: adjust the running flag counter (the mines-left display it
also updates is presentation). -/
def incFlags (g : Game) (inc : Bool) : Game :=
  { g with numFlags := if inc then g.numFlags + 1 else g.numFlags - 1 }

/-- `Cell.setFlag`: a no-op on an open cell, otherwise toggle the flag
(the flag glyph span does not touch the class list) and adjust the
counter. -/
def setFlagAt (g : Game) (r c : Nat) : Game :=
  match cellAt g r c with
  | none => g
  | some cell =>
    if cell.isOpen then g
    else
      incFlags (setCellG g r c { cell with isFlagged := !cell.isFlagged })
        (!cell.isFlagged)

/-- `countAdjFlags`: flags in the 3×3 block around `(row, col)`, centre
included (the loops have no self-skip). -/
def countAdjFlags (g : Game) (row col : Int) : Nat :=
  (threeAround row).foldl
    (fun cnt i =>
      if isInRowLimit g i then
        (threeAround col).foldl
          (fun cnt2 j =>
            if isInColLimit g j then
              cnt2 +
                (match intGet g i j with
                 | some cell => if cell.isFlagged then 1 else 0
                 | none => 0)
            else cnt2)
          cnt
      else cnt)
    0

/-- `canOpenAdjacentCells`: the chord precondition.  The `===` between the
flag count (a number) and `adjMineCount` (possibly `undefined`) becomes an
equality with `some`. -/
def canOpenAdjacentCells (g : Game) (r c : Nat) : Bool :=
  match cellAt g r c with
  | none => false
  | some cell =>
    cell.isOpen && !cell.isFlagged &&
      cell.adjMineCount == some (countAdjFlags g (r : Int) (c : Int))

/-- The 3×3 block of index pairs the chord, press and close loops run
over, in source order (centre included — those loops have no
self-skip). -/
def around3x3 (r c : Int) : List (Int × Int) :=
  (threeAround r).flatMap fun i => (threeAround c).map fun j => (i, j)

/-- One position of the chord loop: skipped when out of limits or
flagged, otherwise opened with `setOpen(true)`.  The flag test reads the
current state. -/
def chordStep (fuel : Nat) (acc : Game) (ij : Int × Int) : Option Game :=
  if isInRowLimit acc ij.1 ∧ isInColLimit acc ij.2 then
    match intGet acc ij.1 ij.2 with
    | some cell =>
      if cell.isFlagged then some acc
      else setOpenClicked fuel acc ij.1.toNat ij.2.toNat
    | none => some acc
  else some acc

/-- The body of `openAdjacentCells` once the precondition holds. -/
def chordOpenLoop (fuel : Nat) (g : Game) (r c : Nat) : Option Game :=
  (around3x3 (r : Int) (c : Int)).foldlM (chordStep fuel) g

/-- `openAdjacentCells`: nothing happens unless the precondition holds. -/
def openAdjacentCells (fuel : Nat) (g : Game) (r c : Nat) : Option Game :=
  if canOpenAdjacentCells g r c then chordOpenLoop fuel g r c else some g

/-- `pressNeighbors`: visually press the closed, unflagged cells of the
3×3 block (CSS class `cell open`, so the `closed` token disappears). -/
def pressNeighborsF (g : Game) (r c : Nat) : Game :=
  (around3x3 (r : Int) (c : Int)).foldl
    (fun acc (ij : Int × Int) =>
      if isInRowLimit acc ij.1 ∧ isInColLimit acc ij.2 then
        match intGet acc ij.1 ij.2 with
        | some cell =>
          if !cell.isOpen && !cell.isFlagged then
            setCellG acc ij.1.toNat ij.2.toNat { cell with cssClosed := false }
          else acc
        | none => acc
      else acc)
    g

/-- `closeNeighbors`: restore the `closed` class on the closed, unflagged
cells of the 3×3 block. -/
def closeNeighborsF (g : Game) (r c : Nat) : Game :=
  (around3x3 (r : Int) (c : Int)).foldl
    (fun acc (ij : Int × Int) =>
      if isInRowLimit acc ij.1 ∧ isInColLimit acc ij.2 then
        match intGet acc ij.1 ij.2 with
        | some cell =>
          if !cell.isOpen && !cell.isFlagged then
            setCellG acc ij.1.toNat ij.2.toNat { cell with cssClosed := true }
          else acc
        | none => acc
      else acc)
    g

/-!
Player actions.  Each action below is the state-relevant part of the
mousedown/mouseup handler pair for one button, fired on an existing cell
element.  Modelled from the spec: the style sheet (not under `src/`)
renders the `no-click` class added by `onGameOver` as
`pointer-events: none`, so a cell carrying that token receives no mouse
events at all — the spec states that once in a terminal state the session
"rejects further mutating actions" and that `onGameOver` "disables
further input".  A blocked event leaves the state untouched.
-/

/-- Modelled from the spec: the style rules (not under `src/`) render the
`no-click` token as `pointer-events: none`, so no mouse event fires on a
cell carrying it — hence the `noClick` guard.  The rest is the
mousedown/mouseup handler pair for button 0 from the source: mousedown
presses a closed cell (`this.open()`, class `cell open` — the `closed`
token is dropped whether or not the cell is flagged, and nothing restores
it on a flagged cell); mouseup sets the smiley face, starts the session
clock, then opens the cell unless it is flagged. -/
def clickCell (fuel : Nat) (g : Game) (r c : Nat) : Option Game :=
  match cellAt g r c with
  | none => some g
  | some cell =>
    if cell.noClick then some g
    else
      let gP := if cell.isOpen then g
                else setCellG g r c { cell with cssClosed := false }
      let g1 := { gP with face := Face.smile, isRunning := true }
      if cell.isFlagged then some g1
      else setOpenClicked fuel g1 r c

/-- Modelled from the spec: the `noClick` guard is the `pointer-events:
none` style rule, as in `clickCell`.  The rest is the button-1 (chord)
handler pair from the source: mousedown presses the cell and its
neighbours, mouseup sets the face, starts the clock, releases the pressed
neighbours and runs `openAdjacentCells`. -/
def chordCell (fuel : Nat) (g : Game) (r c : Nat) : Option Game :=
  match cellAt g r c with
  | none => some g
  | some cell =>
    if cell.noClick then some g
    else
      let gA := if cell.isOpen then g
                else setCellG g r c { cell with cssClosed := false }
      let gB := pressNeighborsF gA r c
      let gC := { closeNeighborsF gB r c with
                  face := Face.smile, isRunning := true }
      openAdjacentCells fuel gC r c

/-- Modelled from the spec: the `noClick` guard is the `pointer-events:
none` style rule, as in `clickCell`.  The rest is the button-2 mouseup
handler from the source: set the face, start the clock and toggle the
flag. -/
def flagCell (g : Game) (r c : Nat) : Game :=
  match cellAt g r c with
  | none => g
  | some cell =>
    if cell.noClick then g
    else setFlagAt { g with face := Face.smile, isRunning := true } r c

/-- The player actions a session accepts. -/
inductive PAct where
  | lclick (r c : Nat)
  | mclick (r c : Nat)
  | rclick (r c : Nat)
deriving DecidableEq, Repr

/-- Run one player action. -/
def dispatch (fuel : Nat) (g : Game) : PAct → Option Game
  | .lclick r c => clickCell fuel g r c
  | .mclick r c => chordCell fuel g r c
  | .rclick r c => some (flagCell g r c)

/-- Run a sequence of player actions. -/
def runActs (fuel : Nat) : List PAct → Game → Option Game
  | [], g => some g
  | a :: as, g =>
    match dispatch fuel g a with
    | none => none
    | some g1 => runActs fuel as g1

/-- The engine operations named by the specification. -/
inductive EOp where
  | openC (r c : Nat)
  | flood (r c : Nat)
  | chord (r c : Nat)
  | flagT (r c : Nat)
  | reveal
deriving DecidableEq, Repr

/-- Run one engine operation. -/
def runEOp (fuel : Nat) (g : Game) : EOp → Option Game
  | .openC r c => setOpenClicked fuel g r c
  | .flood r c => floodFillCells fuel g r c
  | .chord r c => openAdjacentCells fuel g r c
  | .flagT r c => some (setFlagAt g r c)
  | .reveal => some (revealAllMines g)

/-- Run a sequence of engine operations. -/
def runEOps (fuel : Nat) : List EOp → Game → Option Game
  | [], g => some g
  | o :: os, g =>
    match runEOp fuel g o with
    | none => none
    | some g1 => runEOps fuel os g1

/-- The session status as the spec names it, read off the observables:
the win face means `Won`, the loss face `Lost`. -/
def status (g : Game) : Status :=
  match g.face with
  | .cool => .Won
  | .dead => .Lost
  | _ => if g.isRunning then .Running else .Pending

/-!  Specification-side notions used to state the claims.  -/

/-- The board has exactly the advertised shape. -/
def rect (g : Game) : Prop :=
  g.board.length = g.rows ∧ ∀ row ∈ g.board, row.length = g.cols

/-- The eight Moore-neighbourhood offsets. -/
def mooreOffsets : List (Int × Int) :=
  [(-1, -1), (-1, 0), (-1, 1), (0, -1), (0, 1), (1, -1), (1, 0), (1, 1)]

/-- The exact number of mines among the up-to-eight in-bounds Moore
neighbours of `(r, c)` — the quantity the specification says
`adjacentMineCount` must equal. -/
def mooreMineCount (g : Game) (r c : Nat) : Nat :=
  (mooreOffsets.filter fun d =>
    mineAtI g ((r : Int) + d.1) ((c : Int) + d.2)).length

/-- Two coordinates are Moore-adjacent: distinct and within Chebyshev
distance one. -/
def Adjacent (x y : Nat × Nat) : Prop :=
  x ≠ y ∧ ((x.1 : Int) - y.1).natAbs ≤ 1 ∧ ((x.2 : Int) - y.2).natAbs ≤ 1

instance (x y : Nat × Nat) : Decidable (Adjacent x y) := by
  unfold Adjacent; infer_instance

/-- The cell exists (is on the board). -/
def hasCell (g : Game) (x : Nat × Nat) : Prop :=
  (cellAt g x.1 x.2).isSome

/-- A zero-count cell. -/
def zeroAt (g : Game) (x : Nat × Nat) : Prop :=
  adjAt g x = some 0

/-- Coordinates reachable from the seed `s` through the connected region
of zero-count cells, extended one step onto its border: the closure the
specification says a flood fill must open in full. -/
inductive ZReach (g : Game) (s : Nat × Nat) : Nat × Nat → Prop where
  | refl : ZReach g s s
  | step {x y : Nat × Nat} : ZReach g s x → zeroAt g x → Adjacent x y →
      hasCell g y → ZReach g s y

/-- Every stored adjacency count is correct: mines keep the JavaScript
`undefined`, and every non-mine cell stores its exact Moore mine count. -/
def countsCorrect (g : Game) : Prop :=
  ∀ r c cell, cellAt g r c = some cell →
    (cell.isMine = true → cell.adjMineCount = none) ∧
    (cell.isMine = false →
      cell.adjMineCount = some (mooreMineCount g r c))

/-- No cell on the board is flagged. -/
def noFlags (g : Game) : Prop :=
  ∀ x, flagAt g x = false

/-- The basic cell invariant: never both open and flagged. -/
def openFlagInv (g : Game) : Prop :=
  ∀ r c cell, cellAt g r c = some cell →
    cell.isOpen = true → cell.isFlagged = false

/-- States produced by normal play: a flagged cell is closed, the
`closed` class token tracks `isOpen` exactly, and the flag counter counts
the flagged cells. -/
def GoodState (g : Game) : Prop :=
  (∀ row ∈ g.board, ∀ cell ∈ row,
    (cell.isFlagged = true → cell.isOpen = false) ∧
    cell.cssClosed = !cell.isOpen) ∧
  g.numFlags = (countFlagged g : Int)

/-!  Basic lemmas about cell access and update.  -/

theorem cellAt_setCellG (g : Game) (r c : Nat) (x : Cell) (r' c' : Nat) :
    cellAt (setCellG g r c x) r' c' =
      if r = r' ∧ c = c' then (cellAt g r c).map fun _ => x
      else cellAt g r' c' := by
  unfold cellAt setCellG setCellB
  cases hb : g.board[r]? with
  | none =>
    by_cases h : r = r' ∧ c = c'
    · obtain ⟨rfl, rfl⟩ := h; simp [hb]
    · simp [h]
  | some row =>
    have hr : r < g.board.length := by
      by_contra hlen
      simp [List.getElem?_eq_none (Nat.le_of_not_lt hlen)] at hb
    by_cases h1 : r = r'
    · subst h1
      simp only [List.getElem?_set_self hr, hb]
      by_cases h2 : c = c'
      · subst h2
        cases hc : row[c]? with
        | none =>
          have hclen : row.length ≤ c := by
            by_contra hl
            simp [List.getElem?_eq_getElem (Nat.lt_of_not_le hl)] at hc
          have hclen2 : (row.set c x).length ≤ c := by
            rw [List.length_set]; exact hclen
          simp [List.getElem?_eq_none hclen2, hc]
        | some old =>
          have hc' : c < row.length := by
            by_contra hl
            simp [List.getElem?_eq_none (Nat.le_of_not_lt hl)] at hc
          simp [List.getElem?_set_self (by simpa using hc'), hc]
      · simp [List.getElem?_set_ne h2, h2]
    · simp [List.getElem?_set_ne h1, h1]

theorem cellAt_setCellG_self {g : Game} {r c : Nat} {cell : Cell}
    (h : cellAt g r c = some cell) (x : Cell) :
    cellAt (setCellG g r c x) r c = some x := by
  rw [cellAt_setCellG]; simp [h]

theorem cellAt_setCellG_ne {g : Game} (r c : Nat) (x : Cell) {r' c' : Nat}
    (h : ¬ (r = r' ∧ c = c')) :
    cellAt (setCellG g r c x) r' c' = cellAt g r' c' := by
  rw [cellAt_setCellG]; simp [h]

theorem isSome_cellAt_setCellG (g : Game) (r c : Nat) (x : Cell)
    (r' c' : Nat) :
    (cellAt (setCellG g r c x) r' c').isSome = (cellAt g r' c').isSome := by
  rw [cellAt_setCellG]
  by_cases h : r = r' ∧ c = c'
  · obtain ⟨rfl, rfl⟩ := h; simp
  · simp [h]

@[simp] theorem setCellG_board (g : Game) (r c : Nat) (x : Cell) :
    (setCellG g r c x).board = setCellB g.board r c x := rfl

@[simp] theorem setCellG_rows (g : Game) (r c : Nat) (x : Cell) :
    (setCellG g r c x).rows = g.rows := rfl

@[simp] theorem setCellG_cols (g : Game) (r c : Nat) (x : Cell) :
    (setCellG g r c x).cols = g.cols := rfl

@[simp] theorem setCellG_mines (g : Game) (r c : Nat) (x : Cell) :
    (setCellG g r c x).mines = g.mines := rfl

@[simp] theorem setCellG_numFlags (g : Game) (r c : Nat) (x : Cell) :
    (setCellG g r c x).numFlags = g.numFlags := rfl

@[simp] theorem setCellG_face (g : Game) (r c : Nat) (x : Cell) :
    (setCellG g r c x).face = g.face := rfl

@[simp] theorem setCellG_isRunning (g : Game) (r c : Nat) (x : Cell) :
    (setCellG g r c x).isRunning = g.isRunning := rfl

/-!  Counting machinery.  -/

/-- Cells satisfying `p`, counted over a whole board. -/
def countB (p : Cell → Bool) (b : List (List Cell)) : Nat :=
  (b.map (List.countP p)).sum

theorem foldl_count_eq (p : Cell → Bool) (b : List (List Cell)) (n : Nat) :
    b.foldl (fun acc row => acc + row.countP p) n = n + countB p b := by
  induction b generalizing n with
  | nil => simp [countB]
  | cons row t ih =>
    simp only [List.foldl_cons]
    rw [ih]
    unfold countB
    simp only [List.map_cons, List.sum_cons]
    omega

theorem countMines_eq_countB (g : Game) :
    countMines g = countB (·.isMine) g.board := by
  unfold countMines; rw [foldl_count_eq]; omega

theorem countFlagged_eq_countB (g : Game) :
    countFlagged g = countB (·.isFlagged) g.board := by
  unfold countFlagged; rw [foldl_count_eq]; omega

theorem closedCount_eq_countB (g : Game) :
    closedCount g = countB (·.cssClosed) g.board := by
  unfold closedCount; rw [foldl_count_eq]; omega

theorem unopenedCount_eq_countB (g : Game) :
    unopenedCount g = countB (fun c => !c.isOpen) g.board := by
  unfold unopenedCount; rw [foldl_count_eq]; omega

theorem sum_map_set {α : Type} (f : α → Nat) (b : List α) :
    ∀ (r : Nat) (y : α) (old : α), b[r]? = some old →
      ((b.set r y).map f).sum + f old = (b.map f).sum + f y := by
  induction b with
  | nil => intro r y old h; simp at h
  | cons hd t ih =>
    intro r y old h
    cases r with
    | zero => simp at h; subst h; simp; omega
    | succ r =>
      simp only [List.getElem?_cons_succ] at h
      have := ih r y old h
      simp only [List.set_cons_succ, List.map_cons, List.sum_cons]
      omega

theorem ite_le_countP (p : Cell → Bool) {row : List Cell} {c : Nat}
    {old : Cell} (hc : row[c]? = some old) :
    (if p old then 1 else 0) ≤ row.countP p := by
  by_cases hp : p old
  · simp only [hp, if_true]
    have hmem : old ∈ row := by
      have h2 := List.getElem?_eq_some.mp hc
      obtain ⟨hlt, rfl⟩ := h2
      exact List.getElem_mem hlt
    exact List.countP_pos_iff.mpr ⟨old, hmem, hp⟩
  · simp [hp]

theorem countB_setCellB (p : Cell → Bool) {b : List (List Cell)}
    {r c : Nat} {row : List Cell} {old : Cell}
    (hb : b[r]? = some row) (hc : row[c]? = some old) (x : Cell) :
    countB p (setCellB b r c x) + (if p old then 1 else 0) =
      countB p b + (if p x then 1 else 0) := by
  have hsb : setCellB b r c x = b.set r (row.set c x) := by
    unfold setCellB; rw [hb]
  rw [hsb]
  have hlt : c < row.length := (List.getElem?_eq_some.mp hc).1
  have hrow : row[c] = old := by
    have := List.getElem?_eq_getElem hlt
    rw [hc] at this; exact (Option.some_injective _ this.symm)
  have hset := List.countP_set p row c x hlt
  rw [hrow] at hset
  have hs := sum_map_set (List.countP p) b r (row.set c x) row hb
  have hle := ite_le_countP p hc
  unfold countB at *
  omega

theorem countB_setCellB_same (p : Cell → Bool) {b : List (List Cell)}
    {r c : Nat} {row : List Cell} {old : Cell}
    (hb : b[r]? = some row) (hc : row[c]? = some old) {x : Cell}
    (hx : p x = p old) :
    countB p (setCellB b r c x) = countB p b := by
  have := countB_setCellB p hb hc x
  rw [hx] at this
  omega

/-- Split a `cellAt` hit into its row and cell. -/
theorem cellAt_elim {g : Game} {r c : Nat} {cell : Cell}
    (h : cellAt g r c = some cell) :
    ∃ row, g.board[r]? = some row ∧ row[c]? = some cell := by
  unfold cellAt at h
  cases hb : g.board[r]? with
  | none => rw [hb] at h; simp at h
  | some row => rw [hb] at h; exact ⟨row, rfl, h⟩

/-!  Frame lemmas for `setOpenQuiet`.  -/

theorem setOpenQuiet_eq_none {g : Game} {r c : Nat}
    (h : cellAt g r c = none) : setOpenQuiet g r c = g := by
  unfold setOpenQuiet; rw [h]

theorem setOpenQuiet_eq_flagged {g : Game} {r c : Nat} {cell : Cell}
    (h : cellAt g r c = some cell) (hf : cell.isFlagged = true) :
    setOpenQuiet g r c = g := by
  unfold setOpenQuiet; rw [h]; simp [hf]

theorem setOpenQuiet_eq_upd {g : Game} {r c : Nat} {cell : Cell}
    (h : cellAt g r c = some cell) (hf : cell.isFlagged = false) :
    setOpenQuiet g r c =
      setCellG g r c { cell with isOpen := true, cssClosed := false } := by
  unfold setOpenQuiet; rw [h]; simp [hf]

@[simp] theorem setOpenQuiet_rows (g : Game) (r c : Nat) :
    (setOpenQuiet g r c).rows = g.rows := by
  cases h : cellAt g r c with
  | none => rw [setOpenQuiet_eq_none h]
  | some cell =>
    cases hf : cell.isFlagged with
    | true => rw [setOpenQuiet_eq_flagged h hf]
    | false => rw [setOpenQuiet_eq_upd h hf]; rfl

@[simp] theorem setOpenQuiet_cols (g : Game) (r c : Nat) :
    (setOpenQuiet g r c).cols = g.cols := by
  cases h : cellAt g r c with
  | none => rw [setOpenQuiet_eq_none h]
  | some cell =>
    cases hf : cell.isFlagged with
    | true => rw [setOpenQuiet_eq_flagged h hf]
    | false => rw [setOpenQuiet_eq_upd h hf]; rfl

@[simp] theorem setOpenQuiet_mines (g : Game) (r c : Nat) :
    (setOpenQuiet g r c).mines = g.mines := by
  cases h : cellAt g r c with
  | none => rw [setOpenQuiet_eq_none h]
  | some cell =>
    cases hf : cell.isFlagged with
    | true => rw [setOpenQuiet_eq_flagged h hf]
    | false => rw [setOpenQuiet_eq_upd h hf]; rfl

@[simp] theorem setOpenQuiet_numFlags (g : Game) (r c : Nat) :
    (setOpenQuiet g r c).numFlags = g.numFlags := by
  cases h : cellAt g r c with
  | none => rw [setOpenQuiet_eq_none h]
  | some cell =>
    cases hf : cell.isFlagged with
    | true => rw [setOpenQuiet_eq_flagged h hf]
    | false => rw [setOpenQuiet_eq_upd h hf]; rfl

@[simp] theorem setOpenQuiet_face (g : Game) (r c : Nat) :
    (setOpenQuiet g r c).face = g.face := by
  cases h : cellAt g r c with
  | none => rw [setOpenQuiet_eq_none h]
  | some cell =>
    cases hf : cell.isFlagged with
    | true => rw [setOpenQuiet_eq_flagged h hf]
    | false => rw [setOpenQuiet_eq_upd h hf]; rfl

@[simp] theorem setOpenQuiet_isRunning (g : Game) (r c : Nat) :
    (setOpenQuiet g r c).isRunning = g.isRunning := by
  cases h : cellAt g r c with
  | none => rw [setOpenQuiet_eq_none h]
  | some cell =>
    cases hf : cell.isFlagged with
    | true => rw [setOpenQuiet_eq_flagged h hf]
    | false => rw [setOpenQuiet_eq_upd h hf]; rfl

theorem flagAt_setOpenQuiet (g : Game) (r c : Nat) (x : Nat × Nat) :
    flagAt (setOpenQuiet g r c) x = flagAt g x := by
  cases h : cellAt g r c with
  | none => rw [setOpenQuiet_eq_none h]
  | some cell =>
    cases hf : cell.isFlagged with
    | true => rw [setOpenQuiet_eq_flagged h hf]
    | false =>
      rw [setOpenQuiet_eq_upd h hf]
      unfold flagAt
      rw [cellAt_setCellG]
      by_cases hx : r = x.1 ∧ c = x.2
      · obtain ⟨h1, h2⟩ := hx
        subst h1; subst h2
        simp [h]
      · simp [hx]

theorem mineAt_setOpenQuiet (g : Game) (r c : Nat) (x : Nat × Nat) :
    mineAt (setOpenQuiet g r c) x = mineAt g x := by
  cases h : cellAt g r c with
  | none => rw [setOpenQuiet_eq_none h]
  | some cell =>
    cases hf : cell.isFlagged with
    | true => rw [setOpenQuiet_eq_flagged h hf]
    | false =>
      rw [setOpenQuiet_eq_upd h hf]
      unfold mineAt
      rw [cellAt_setCellG]
      by_cases hx : r = x.1 ∧ c = x.2
      · obtain ⟨h1, h2⟩ := hx
        subst h1; subst h2
        simp [h]
      · simp [hx]

theorem adjAt_setOpenQuiet (g : Game) (r c : Nat) (x : Nat × Nat) :
    adjAt (setOpenQuiet g r c) x = adjAt g x := by
  cases h : cellAt g r c with
  | none => rw [setOpenQuiet_eq_none h]
  | some cell =>
    cases hf : cell.isFlagged with
    | true => rw [setOpenQuiet_eq_flagged h hf]
    | false =>
      rw [setOpenQuiet_eq_upd h hf]
      unfold adjAt
      rw [cellAt_setCellG]
      by_cases hx : r = x.1 ∧ c = x.2
      · obtain ⟨h1, h2⟩ := hx
        subst h1; subst h2
        simp [h]
      · simp [hx]

theorem isSome_cellAt_setOpenQuiet (g : Game) (r c : Nat) (r' c' : Nat) :
    (cellAt (setOpenQuiet g r c) r' c').isSome = (cellAt g r' c').isSome := by
  cases h : cellAt g r c with
  | none => rw [setOpenQuiet_eq_none h]
  | some cell =>
    cases hf : cell.isFlagged with
    | true => rw [setOpenQuiet_eq_flagged h hf]
    | false =>
      rw [setOpenQuiet_eq_upd h hf]
      exact isSome_cellAt_setCellG ..

theorem openAt_setOpenQuiet_mono {g : Game} {x : Nat × Nat}
    (h : openAt g x = true) (r c : Nat) :
    openAt (setOpenQuiet g r c) x = true := by
  cases hc : cellAt g r c with
  | none => rw [setOpenQuiet_eq_none hc]; exact h
  | some cell =>
    cases hf : cell.isFlagged with
    | true => rw [setOpenQuiet_eq_flagged hc hf]; exact h
    | false =>
      rw [setOpenQuiet_eq_upd hc hf]
      unfold openAt at *
      rw [cellAt_setCellG]
      by_cases hx : r = x.1 ∧ c = x.2
      · obtain ⟨h1, h2⟩ := hx
        subst h1; subst h2
        simp [hc]
      · simp [hx]; exact h

theorem openAt_setOpenQuiet_ne {g : Game} {r c : Nat} {x : Nat × Nat}
    (hx : x ≠ (r, c)) :
    openAt (setOpenQuiet g r c) x = openAt g x := by
  cases hc : cellAt g r c with
  | none => rw [setOpenQuiet_eq_none hc]
  | some cell =>
    cases hf : cell.isFlagged with
    | true => rw [setOpenQuiet_eq_flagged hc hf]
    | false =>
      rw [setOpenQuiet_eq_upd hc hf]
      unfold openAt
      rw [cellAt_setCellG_ne]
      intro hcontra
      exact hx (by cases x; simp at hcontra ⊢; exact ⟨hcontra.1.symm, hcontra.2.symm⟩)

theorem openAt_setOpenQuiet_self {g : Game} {r c : Nat} {cell : Cell}
    (hc : cellAt g r c = some cell) (hf : cell.isFlagged = false) :
    openAt (setOpenQuiet g r c) (r, c) = true := by
  rw [setOpenQuiet_eq_upd hc hf]
  unfold openAt
  simp [cellAt_setCellG_self hc]

/-!  More `setOpenQuiet` lemmas.  -/

theorem openAt_setOpenQuiet_src {g : Game} {r c : Nat} {x : Nat × Nat}
    (h : openAt (setOpenQuiet g r c) x = true) :
    x = (r, c) ∨ openAt g x = true := by
  by_cases hx : x = (r, c)
  · exact Or.inl hx
  · right; rw [← openAt_setOpenQuiet_ne hx]; exact h

theorem unopenedCount_setOpenQuiet_dec {g : Game} {r c : Nat} {cell : Cell}
    (h : cellAt g r c = some cell) (ho : cell.isOpen = false)
    (hf : cell.isFlagged = false) :
    unopenedCount (setOpenQuiet g r c) + 1 = unopenedCount g := by
  rw [setOpenQuiet_eq_upd h hf]
  obtain ⟨row, hb, hc⟩ := cellAt_elim h
  have hcnt := countB_setCellB (fun c => !c.isOpen) hb hc
    { cell with isOpen := true, cssClosed := false }
  simp only [ho, Bool.not_false, Bool.not_true, if_true] at hcnt
  rw [unopenedCount_eq_countB, unopenedCount_eq_countB, setCellG_board]
  simp only [Bool.false_eq_true, if_false] at hcnt
  omega

/-!  Lemmas about the flood-fill expansion fold.  -/

theorem expandStep_fields (st : Game × List (Nat × Nat)) (ij : Int × Int) :
    (expandStep st ij).1.rows = st.1.rows ∧
    (expandStep st ij).1.cols = st.1.cols ∧
    (expandStep st ij).1.mines = st.1.mines ∧
    (expandStep st ij).1.numFlags = st.1.numFlags ∧
    (expandStep st ij).1.face = st.1.face ∧
    (expandStep st ij).1.isRunning = st.1.isRunning := by
  unfold expandStep
  cases intGet st.1 ij.1 ij.2 with
  | none => exact ⟨rfl, rfl, rfl, rfl, rfl, rfl⟩
  | some cell =>
    by_cases ho : cell.isOpen
    · simp [ho]
    · simp [ho]

theorem expandStep_static (st : Game × List (Nat × Nat)) (ij : Int × Int)
    (x : Nat × Nat) :
    flagAt (expandStep st ij).1 x = flagAt st.1 x ∧
    mineAt (expandStep st ij).1 x = mineAt st.1 x ∧
    adjAt (expandStep st ij).1 x = adjAt st.1 x ∧
    (cellAt (expandStep st ij).1 x.1 x.2).isSome =
      (cellAt st.1 x.1 x.2).isSome := by
  unfold expandStep
  cases intGet st.1 ij.1 ij.2 with
  | none => exact ⟨rfl, rfl, rfl, rfl⟩
  | some cell =>
    by_cases ho : cell.isOpen
    · simp [ho]
    · simp only [ho, Bool.false_eq_true, if_neg, not_false_iff]
      exact ⟨flagAt_setOpenQuiet .., mineAt_setOpenQuiet ..,
             adjAt_setOpenQuiet .., isSome_cellAt_setOpenQuiet ..⟩

theorem expandFold_fields (L : List (Int × Int)) :
    ∀ st : Game × List (Nat × Nat),
    (L.foldl expandStep st).1.rows = st.1.rows ∧
    (L.foldl expandStep st).1.cols = st.1.cols ∧
    (L.foldl expandStep st).1.mines = st.1.mines ∧
    (L.foldl expandStep st).1.numFlags = st.1.numFlags ∧
    (L.foldl expandStep st).1.face = st.1.face ∧
    (L.foldl expandStep st).1.isRunning = st.1.isRunning := by
  induction L with
  | nil => intro st; exact ⟨rfl, rfl, rfl, rfl, rfl, rfl⟩
  | cons ij t ih =>
    intro st
    have h1 := expandStep_fields st ij
    have h2 := ih (expandStep st ij)
    simp only [List.foldl_cons]
    exact ⟨h2.1.trans h1.1, h2.2.1.trans h1.2.1, h2.2.2.1.trans h1.2.2.1,
           h2.2.2.2.1.trans h1.2.2.2.1, h2.2.2.2.2.1.trans h1.2.2.2.2.1,
           h2.2.2.2.2.2.trans h1.2.2.2.2.2⟩

theorem expandFold_static (L : List (Int × Int)) :
    ∀ (st : Game × List (Nat × Nat)) (x : Nat × Nat),
    flagAt (L.foldl expandStep st).1 x = flagAt st.1 x ∧
    mineAt (L.foldl expandStep st).1 x = mineAt st.1 x ∧
    adjAt (L.foldl expandStep st).1 x = adjAt st.1 x ∧
    (cellAt (L.foldl expandStep st).1 x.1 x.2).isSome =
      (cellAt st.1 x.1 x.2).isSome := by
  induction L with
  | nil => intro st x; exact ⟨rfl, rfl, rfl, rfl⟩
  | cons ij t ih =>
    intro st x
    have h1 := expandStep_static st ij x
    have h2 := ih (expandStep st ij) x
    simp only [List.foldl_cons]
    exact ⟨h2.1.trans h1.1, h2.2.1.trans h1.2.1, h2.2.2.1.trans h1.2.2.1,
           h2.2.2.2.trans h1.2.2.2⟩

theorem expandStep_mono {st : Game × List (Nat × Nat)} {x : Nat × Nat}
    (h : openAt st.1 x = true) (ij : Int × Int) :
    openAt (expandStep st ij).1 x = true := by
  unfold expandStep
  cases intGet st.1 ij.1 ij.2 with
  | none => exact h
  | some cell =>
    by_cases ho : cell.isOpen
    · simp only [ho, if_true]; exact h
    · simp only [ho, Bool.false_eq_true, if_neg, not_false_iff]
      exact openAt_setOpenQuiet_mono h ..

theorem expandFold_mono (L : List (Int × Int)) :
    ∀ {st : Game × List (Nat × Nat)} {x : Nat × Nat},
    openAt st.1 x = true → openAt (L.foldl expandStep st).1 x = true := by
  induction L with
  | nil => intro st x h; exact h
  | cons ij t ih =>
    intro st x h
    simp only [List.foldl_cons]
    exact ih (expandStep_mono h ij)

theorem intGet_elim {g : Game} {i j : Int} {cell : Cell}
    (h : intGet g i j = some cell) :
    0 ≤ i ∧ 0 ≤ j ∧ cellAt g i.toNat j.toNat = some cell := by
  unfold intGet at h
  by_cases hs : 0 ≤ i ∧ 0 ≤ j
  · rw [if_pos hs] at h; exact ⟨hs.1, hs.2, h⟩
  · rw [if_neg hs] at h; exact absurd h (by simp)

theorem mineAtI_eq (g : Game) (i j : Int) :
    mineAtI g i j =
      if 0 ≤ i ∧ 0 ≤ j then mineAt g (i.toNat, j.toNat) else false := by
  unfold mineAtI intGet mineAt
  by_cases hs : 0 ≤ i ∧ 0 ≤ j
  · simp only [if_pos hs]
  · simp only [if_neg hs]

theorem expandStep_eq_none {st : Game × List (Nat × Nat)} {ij : Int × Int}
    (hg : intGet st.1 ij.1 ij.2 = none) : expandStep st ij = st := by
  unfold expandStep; rw [hg]

theorem expandStep_eq_open {st : Game × List (Nat × Nat)} {ij : Int × Int}
    {cell : Cell} (hg : intGet st.1 ij.1 ij.2 = some cell)
    (ho : cell.isOpen = true) : expandStep st ij = st := by
  unfold expandStep; rw [hg]; simp [ho]

theorem expandStep_eq_go {st : Game × List (Nat × Nat)} {ij : Int × Int}
    {cell : Cell} (hg : intGet st.1 ij.1 ij.2 = some cell)
    (ho : cell.isOpen = false) :
    expandStep st ij =
      (setOpenQuiet st.1 ij.1.toNat ij.2.toNat,
       st.2 ++ [(ij.1.toNat, ij.2.toNat)]) := by
  unfold expandStep; rw [hg]; simp [ho]

theorem expandStep_queue (st : Game × List (Nat × Nat)) (ij : Int × Int) :
    (expandStep st ij).2 = st.2 ∨
    ((expandStep st ij).2 = st.2 ++ [(ij.1.toNat, ij.2.toNat)] ∧
      0 ≤ ij.1 ∧ 0 ≤ ij.2 ∧
      (cellAt st.1 ij.1.toNat ij.2.toNat).isSome = true) := by
  cases hg : intGet st.1 ij.1 ij.2 with
  | none => rw [expandStep_eq_none hg]; exact Or.inl rfl
  | some cell =>
    cases ho : cell.isOpen with
    | true => rw [expandStep_eq_open hg ho]; exact Or.inl rfl
    | false =>
      rw [expandStep_eq_go hg ho]
      obtain ⟨hi, hj, hc⟩ := intGet_elim hg
      exact Or.inr ⟨rfl, hi, hj, by rw [hc]; rfl⟩

theorem expandFold_queue (L : List (Int × Int)) :
    ∀ st : Game × List (Nat × Nat), ∃ new,
      (L.foldl expandStep st).2 = st.2 ++ new ∧
      ∀ y ∈ new, (∃ ij ∈ L, y = (ij.1.toNat, ij.2.toNat) ∧
          0 ≤ ij.1 ∧ 0 ≤ ij.2) ∧
        (cellAt st.1 y.1 y.2).isSome = true := by
  induction L with
  | nil => intro st; exact ⟨[], by simp, by simp⟩
  | cons ij t ih =>
    intro st
    obtain ⟨new, hq, hy⟩ := ih (expandStep st ij)
    simp only [List.foldl_cons]
    rcases expandStep_queue st ij with h | ⟨h, hi, hj, hsome⟩
    · refine ⟨new, by rw [hq, h], ?_⟩
      intro y hmem
      obtain ⟨⟨ij', hij', hyij⟩, hcell⟩ := hy y hmem
      refine ⟨⟨ij', List.mem_cons_of_mem _ hij', hyij⟩, ?_⟩
      rw [← (expandStep_static st ij (y.1, y.2)).2.2.2]; exact hcell
    · refine ⟨(ij.1.toNat, ij.2.toNat) :: new, ?_, ?_⟩
      · rw [hq, h]; simp
      · intro y hmem
        rcases List.mem_cons.mp hmem with rfl | hmem'
        · exact ⟨⟨ij, List.mem_cons_self .., rfl, hi, hj⟩, hsome⟩
        · obtain ⟨⟨ij', hij', hyij⟩, hcell⟩ := hy y hmem'
          refine ⟨⟨ij', List.mem_cons_of_mem _ hij', hyij⟩, ?_⟩
          rw [← (expandStep_static st ij (y.1, y.2)).2.2.2]; exact hcell

theorem expandStep_open_src {st : Game × List (Nat × Nat)} {ij : Int × Int}
    {x : Nat × Nat} (h : openAt (expandStep st ij).1 x = true) :
    openAt st.1 x = true ∨ x ∈ (expandStep st ij).2 := by
  revert h
  unfold expandStep
  cases hg : intGet st.1 ij.1 ij.2 with
  | none => exact fun h => Or.inl h
  | some cell =>
    by_cases ho : cell.isOpen
    · simp only [ho, if_true]; exact fun h => Or.inl h
    · simp only [ho, Bool.false_eq_true, if_neg, not_false_iff]
      intro h
      rcases openAt_setOpenQuiet_src h with rfl | hopen
      · exact Or.inr (by simp)
      · exact Or.inl hopen

theorem expandFold_open_src (L : List (Int × Int)) :
    ∀ (st : Game × List (Nat × Nat)) (x : Nat × Nat),
      openAt (L.foldl expandStep st).1 x = true →
      openAt st.1 x = true ∨ x ∈ (L.foldl expandStep st).2 := by
  induction L with
  | nil => intro st x h; exact Or.inl h
  | cons ij t ih =>
    intro st x h
    simp only [List.foldl_cons] at h ⊢
    rcases ih (expandStep st ij) x h with hopen | hmem
    · rcases expandStep_open_src hopen with h1 | h2
      · exact Or.inl h1
      · right
        obtain ⟨new, hq, _⟩ := expandFold_queue t (expandStep st ij)
        rw [hq]
        exact List.mem_append_left _ h2
    · exact Or.inr hmem

theorem expandStep_noFlags {st : Game × List (Nat × Nat)}
    (h : noFlags st.1) (ij : Int × Int) : noFlags (expandStep st ij).1 := by
  intro x
  rw [(expandStep_static st ij x).1]
  exact h x

theorem expandStep_measure {st : Game × List (Nat × Nat)}
    (hnf : noFlags st.1) (ij : Int × Int) :
    unopenedCount (expandStep st ij).1 + (expandStep st ij).2.length =
      unopenedCount st.1 + st.2.length := by
  unfold expandStep
  cases hg : intGet st.1 ij.1 ij.2 with
  | none => rfl
  | some cell =>
    by_cases ho : cell.isOpen
    · simp only [ho, if_true]
    · simp only [ho, Bool.false_eq_true, if_neg, not_false_iff]
      obtain ⟨_, _, hc⟩ := intGet_elim hg
      have hf : cell.isFlagged = false := by
        have := hnf (ij.1.toNat, ij.2.toNat)
        unfold flagAt at this
        rw [hc] at this
        exact this
      have := unopenedCount_setOpenQuiet_dec hc (by simpa using ho) hf
      simp only [List.length_append, List.length_cons, List.length_nil]
      omega

theorem expandFold_measure (L : List (Int × Int)) :
    ∀ st : Game × List (Nat × Nat), noFlags st.1 →
      unopenedCount (L.foldl expandStep st).1 +
          (L.foldl expandStep st).2.length =
        unopenedCount st.1 + st.2.length := by
  induction L with
  | nil => intro st _; rfl
  | cons ij t ih =>
    intro st hnf
    simp only [List.foldl_cons]
    rw [ih (expandStep st ij) (expandStep_noFlags hnf ij)]
    exact expandStep_measure hnf ij

theorem expandFold_opens_all (L : List (Int × Int)) :
    ∀ st : Game × List (Nat × Nat), noFlags st.1 →
      ∀ ij ∈ L, ∀ cell,
        intGet (L.foldl expandStep st).1 ij.1 ij.2 = some cell →
        cell.isOpen = true := by
  induction L with
  | nil => intro st _ ij h; simp at h
  | cons ij0 t ih =>
    intro st hnf ij hmem cell hget
    simp only [List.foldl_cons] at hget
    rcases List.mem_cons.mp hmem with rfl | hmem'
    · -- the cell at ij was opened (or already open) at its own step
      obtain ⟨hi, hj, hc⟩ := intGet_elim hget
      have hfin : openAt (t.foldl expandStep (expandStep st ij)).1
          (ij.1.toNat, ij.2.toNat) = true := by
        apply expandFold_mono
        revert hc
        unfold expandStep
        cases hg : intGet st.1 ij.1 ij.2 with
        | none =>
          -- the cell does not exist in st.1, hence not later either
          intro hc
          exfalso
          have hsome := (expandFold_static t (expandStep st ij)
            (ij.1.toNat, ij.2.toNat)).2.2.2
          unfold expandStep at hsome
          rw [hg] at hsome
          rw [hc] at hsome
          unfold intGet at hg
          rw [if_pos ⟨hi, hj⟩] at hg
          rw [hg] at hsome
          simp at hsome
        | some cell0 =>
          by_cases ho : cell0.isOpen
          · intro _
            simp only [ho, if_true]
            unfold intGet at hg
            rw [if_pos ⟨hi, hj⟩] at hg
            unfold openAt
            rw [hg]
            exact ho
          · intro _
            simp only [ho, Bool.false_eq_true, if_neg, not_false_iff]
            unfold intGet at hg
            rw [if_pos ⟨hi, hj⟩] at hg
            have hf : cell0.isFlagged = false := by
              have := hnf (ij.1.toNat, ij.2.toNat)
              unfold flagAt at this
              rw [hg] at this
              exact this
            exact openAt_setOpenQuiet_self hg hf
      unfold openAt at hfin
      obtain ⟨hi2, hj2, hc2⟩ := intGet_elim hget
      rw [hc2] at hfin
      exact hfin
    · exact ih (expandStep st ij0) (expandStep_noFlags hnf ij0) ij hmem' cell hget

theorem expandStep_mines {st : Game × List (Nat × Nat)} {ij : Int × Int}
    (hL : mineAtI st.1 ij.1 ij.2 = false) {x : Nat × Nat}
    (hx : mineAt st.1 x = true) :
    openAt (expandStep st ij).1 x = openAt st.1 x := by
  unfold expandStep
  cases hg : intGet st.1 ij.1 ij.2 with
  | none => rfl
  | some cell =>
    by_cases ho : cell.isOpen
    · simp only [ho, if_true]
    · simp only [ho, Bool.false_eq_true, if_neg, not_false_iff]
      apply openAt_setOpenQuiet_ne
      intro hcontra
      obtain ⟨hi, hj, hc⟩ := intGet_elim hg
      unfold mineAtI at hL
      rw [hg] at hL
      unfold mineAt at hx
      rw [hcontra] at hx
      simp only at hx
      rw [hc] at hx
      rw [hx] at hL
      exact absurd hL (by simp)

theorem expandFold_mines (L : List (Int × Int)) :
    ∀ st : Game × List (Nat × Nat),
      (∀ ij ∈ L, mineAtI st.1 ij.1 ij.2 = false) →
      ∀ x : Nat × Nat, mineAt st.1 x = true →
        openAt (L.foldl expandStep st).1 x = openAt st.1 x := by
  induction L with
  | nil => intro st _ x _; rfl
  | cons ij t ih =>
    intro st hL x hx
    simp only [List.foldl_cons]
    have hstep := expandStep_mines (hL ij (List.mem_cons_self ..)) hx
    have hx' : mineAt (expandStep st ij).1 x = true := by
      rw [(expandStep_static st ij x).2.1]; exact hx
    have hL' : ∀ ij' ∈ t, mineAtI (expandStep st ij).1 ij'.1 ij'.2 = false := by
      intro ij' hmem
      rw [mineAtI_eq] at *
      by_cases hs : 0 ≤ ij'.1 ∧ 0 ≤ ij'.2
      · rw [if_pos hs]
        rw [(expandStep_static st ij (ij'.1.toNat, ij'.2.toNat)).2.1]
        have := hL ij' (List.mem_cons_of_mem _ hmem)
        rw [mineAtI_eq, if_pos hs] at this
        exact this
      · rw [if_neg hs]
    rw [ih (expandStep st ij) hL' x hx', hstep]

/-!  Equation lemmas for the flood-fill loop.  -/

@[simp] theorem ffGo_nil (fuel : Nat) (g : Game) :
    ffGo fuel g [] = some g := by
  cases fuel <;> rfl

theorem ffGo_zero_cons (g : Game) (r c : Nat) (rest : List (Nat × Nat)) :
    ffGo 0 g ((r, c) :: rest) = none := rfl

theorem ffGo_succ (fuel : Nat) (g : Game) (r c : Nat)
    (rest : List (Nat × Nat)) :
    ffGo (fuel + 1) g ((r, c) :: rest) =
      match cellAt g r c with
      | none => none
      | some cell =>
        if 0 < cell.adjMineCount.getD 0 then
          ffGo fuel (setOpenQuiet g r c) rest
        else ffGo fuel (expandNbrs g r c).1 (rest ++ (expandNbrs g r c).2) :=
  rfl

theorem ffGo_succ_missing {g : Game} {r c : Nat} (fuel : Nat)
    {rest : List (Nat × Nat)} (h : cellAt g r c = none) :
    ffGo (fuel + 1) g ((r, c) :: rest) = none := by
  rw [ffGo_succ, h]

theorem ffGo_succ_adj {g : Game} {r c : Nat} {cell : Cell} (fuel : Nat)
    {rest : List (Nat × Nat)} (h : cellAt g r c = some cell)
    (ha : 0 < cell.adjMineCount.getD 0) :
    ffGo (fuel + 1) g ((r, c) :: rest) =
      ffGo fuel (setOpenQuiet g r c) rest := by
  rw [ffGo_succ, h]; simp [ha]

theorem ffGo_succ_exp {g : Game} {r c : Nat} {cell : Cell} (fuel : Nat)
    {rest : List (Nat × Nat)} (h : cellAt g r c = some cell)
    (ha : ¬ 0 < cell.adjMineCount.getD 0) :
    ffGo (fuel + 1) g ((r, c) :: rest) =
      ffGo fuel (expandNbrs g r c).1 (rest ++ (expandNbrs g r c).2) := by
  rw [ffGo_succ, h]; simp [ha]

/-!  A bundled preservation predicate: flags, mines, adjacency counts and
board shape are kept, and opening is monotone.  All the revealing
operations satisfy it.  -/

def KeepsCells (g g' : Game) : Prop :=
  (∀ x, flagAt g' x = flagAt g x) ∧
  (∀ x, mineAt g' x = mineAt g x) ∧
  (∀ x, adjAt g' x = adjAt g x) ∧
  (∀ r c, (cellAt g' r c).isSome = (cellAt g r c).isSome) ∧
  (∀ x, openAt g x = true → openAt g' x = true)

theorem keeps_refl (g : Game) : KeepsCells g g :=
  ⟨fun _ => rfl, fun _ => rfl, fun _ => rfl, fun _ _ => rfl, fun _ h => h⟩

theorem keeps_trans {g g1 g2 : Game} (h1 : KeepsCells g g1)
    (h2 : KeepsCells g1 g2) : KeepsCells g g2 :=
  ⟨fun x => (h2.1 x).trans (h1.1 x),
   fun x => (h2.2.1 x).trans (h1.2.1 x),
   fun x => (h2.2.2.1 x).trans (h1.2.2.1 x),
   fun r c => (h2.2.2.2.1 r c).trans (h1.2.2.2.1 r c),
   fun x h => h2.2.2.2.2 x (h1.2.2.2.2 x h)⟩

theorem keeps_setOpenQuiet (g : Game) (r c : Nat) :
    KeepsCells g (setOpenQuiet g r c) :=
  ⟨flagAt_setOpenQuiet g r c, mineAt_setOpenQuiet g r c,
   adjAt_setOpenQuiet g r c, isSome_cellAt_setOpenQuiet g r c,
   fun _ h => openAt_setOpenQuiet_mono h r c⟩

theorem keeps_expandFold (L : List (Int × Int)) (st : Game × List (Nat × Nat)) :
    KeepsCells st.1 (L.foldl expandStep st).1 :=
  ⟨fun x => (expandFold_static L st x).1,
   fun x => (expandFold_static L st x).2.1,
   fun x => (expandFold_static L st x).2.2.1,
   fun r c => (expandFold_static L st (r, c)).2.2.2,
   fun _ h => expandFold_mono L h⟩

theorem keeps_ffGo : ∀ (fuel : Nat) (q : List (Nat × Nat)) {g g' : Game},
    ffGo fuel g q = some g' → KeepsCells g g' := by
  intro fuel
  induction fuel with
  | zero =>
    intro q g g' h
    cases q with
    | nil => rw [ffGo_nil] at h; cases h; exact keeps_refl _
    | cons hd t =>
      obtain ⟨r, c⟩ := hd
      rw [ffGo_zero_cons] at h
      exact absurd h (by simp)
  | succ n ih =>
    intro q g g' h
    cases q with
    | nil => rw [ffGo_nil] at h; cases h; exact keeps_refl _
    | cons hd t =>
      obtain ⟨r, c⟩ := hd
      cases hc : cellAt g r c with
      | none => rw [ffGo_succ_missing n hc] at h; exact absurd h (by simp)
      | some cell =>
        by_cases ha : 0 < cell.adjMineCount.getD 0
        · rw [ffGo_succ_adj n hc ha] at h
          exact keeps_trans (keeps_setOpenQuiet g r c) (ih t h)
        · rw [ffGo_succ_exp n hc ha] at h
          exact keeps_trans (keeps_expandFold (nineAround r c) (g, []))
            (ih _ h)

/-!  Small bridging lemmas.  -/

theorem adjAt_def {g : Game} {r c : Nat} {cell : Cell}
    (h : cellAt g r c = some cell) : adjAt g (r, c) = cell.adjMineCount := by
  unfold adjAt; rw [h]

theorem mineAt_def {g : Game} {r c : Nat} {cell : Cell}
    (h : cellAt g r c = some cell) : mineAt g (r, c) = cell.isMine := by
  unfold mineAt; rw [h]

theorem openAt_def {g : Game} {r c : Nat} {cell : Cell}
    (h : cellAt g r c = some cell) : openAt g (r, c) = cell.isOpen := by
  unfold openAt; rw [h]

theorem flagAt_def {g : Game} {r c : Nat} {cell : Cell}
    (h : cellAt g r c = some cell) : flagAt g (r, c) = cell.isFlagged := by
  unfold flagAt; rw [h]

theorem intGet_natCast (g : Game) (a b : Nat) :
    intGet g (a : Int) (b : Int) = cellAt g a b := by
  unfold intGet
  rw [if_pos ⟨Int.natCast_nonneg a, Int.natCast_nonneg b⟩]
  simp

theorem mineAtI_keeps {g g1 : Game} (hk : KeepsCells g g1) (i j : Int) :
    mineAtI g1 i j = mineAtI g i j := by
  rw [mineAtI_eq, mineAtI_eq]
  by_cases hs : 0 ≤ i ∧ 0 ≤ j
  · rw [if_pos hs, if_pos hs, hk.2.1]
  · rw [if_neg hs, if_neg hs]

theorem unopenedCount_setOpenQuiet_le (g : Game) (r c : Nat) :
    unopenedCount (setOpenQuiet g r c) ≤ unopenedCount g := by
  cases h : cellAt g r c with
  | none => rw [setOpenQuiet_eq_none h]
  | some cell =>
    cases hf : cell.isFlagged with
    | true => rw [setOpenQuiet_eq_flagged h hf]
    | false =>
      cases ho : cell.isOpen with
      | false =>
        have := unopenedCount_setOpenQuiet_dec h ho hf
        omega
      | true =>
        rw [setOpenQuiet_eq_upd h hf]
        obtain ⟨row, hb, hc⟩ := cellAt_elim h
        have heq := countB_setCellB_same (fun c => !c.isOpen) hb hc
          (x := { cell with isOpen := true, cssClosed := false })
          (by simp [ho])
        rw [unopenedCount_eq_countB, unopenedCount_eq_countB, setCellG_board,
          heq]

theorem adjacent_mem_nineAround {r c : Nat} {y : Nat × Nat}
    (h : Adjacent (r, c) y) :
    ((y.1 : Int), (y.2 : Int)) ∈ nineAround r c := by
  obtain ⟨y1, y2⟩ := y
  obtain ⟨hne, h1, h2⟩ := h
  simp only at h1 h2
  have hne' : ¬ (r = y1 ∧ c = y2) := by
    intro ⟨ha, hb⟩; exact hne (by simp [ha, hb])
  have hr : -1 ≤ (r : Int) - y1 ∧ (r : Int) - y1 ≤ 1 := by omega
  have hc : -1 ≤ (c : Int) - y2 ∧ (c : Int) - y2 ≤ 1 := by omega
  simp only [nineAround, List.mem_cons, List.not_mem_nil, or_false,
    Prod.mk.injEq]
  omega

/-!  Flood fill never opens a mine (when adjacency counts are correct,
zero-count cells have no mine neighbours, and the queue holds no mine).  -/

theorem ffGo_mines :
    ∀ (fuel : Nat) (q : List (Nat × Nat)) (g : Game) {g' : Game},
    (∀ x ∈ q, mineAt g x = false) →
    (∀ x : Nat × Nat, adjAt g x = some 0 →
        ∀ ij ∈ nineAround x.1 x.2, mineAtI g ij.1 ij.2 = false) →
    (∀ x : Nat × Nat, hasCell g x → mineAt g x = false →
        adjAt g x ≠ none) →
    ffGo fuel g q = some g' →
    ∀ x, mineAt g x = true → openAt g' x = openAt g x := by
  intro fuel
  induction fuel with
  | zero =>
    intro q g g' hq h1 h2 hrun x hx
    cases q with
    | nil => rw [ffGo_nil] at hrun; cases hrun; rfl
    | cons hd t =>
      obtain ⟨r, c⟩ := hd
      rw [ffGo_zero_cons] at hrun
      exact absurd hrun (by simp)
  | succ n ih =>
    intro q g g' hq h1 h2 hrun x hx
    cases q with
    | nil => rw [ffGo_nil] at hrun; cases hrun; rfl
    | cons hd rest =>
      obtain ⟨r, c⟩ := hd
      cases hc : cellAt g r c with
      | none => rw [ffGo_succ_missing n hc] at hrun; exact absurd hrun (by simp)
      | some cell =>
        have hmfalse : mineAt g (r, c) = false :=
          hq (r, c) (List.mem_cons_self ..)
        by_cases ha : 0 < cell.adjMineCount.getD 0
        · rw [ffGo_succ_adj n hc ha] at hrun
          have hk := keeps_setOpenQuiet g r c
          have hx1 : mineAt (setOpenQuiet g r c) x = true := by
            rw [hk.2.1]; exact hx
          have hstep :
              openAt (setOpenQuiet g r c) x = openAt g x := by
            apply openAt_setOpenQuiet_ne
            intro hcontra
            rw [hcontra] at hx
            rw [hx] at hmfalse
            exact absurd hmfalse (by simp)
          have hq1 : ∀ z ∈ rest, mineAt (setOpenQuiet g r c) z = false := by
            intro z hz; rw [hk.2.1]; exact hq z (List.mem_cons_of_mem _ hz)
          have h11 : ∀ z : Nat × Nat, adjAt (setOpenQuiet g r c) z = some 0 →
              ∀ ij ∈ nineAround z.1 z.2,
                mineAtI (setOpenQuiet g r c) ij.1 ij.2 = false := by
            intro z hz ij hij
            rw [mineAtI_keeps hk]
            exact h1 z ((hk.2.2.1 z).symm.trans hz) ij hij
          have h21 : ∀ z : Nat × Nat, hasCell (setOpenQuiet g r c) z →
              mineAt (setOpenQuiet g r c) z = false →
              adjAt (setOpenQuiet g r c) z ≠ none := by
            intro z hzs hzm
            unfold hasCell at hzs
            rw [hk.2.2.2.1 z.1 z.2] at hzs
            rw [hk.2.1 z] at hzm
            rw [hk.2.2.1 z]
            exact h2 z hzs hzm
          rw [ih rest _ hq1 h11 h21 hrun x hx1, hstep]
        · rw [ffGo_succ_exp n hc ha] at hrun
          unfold expandNbrs at hrun
          -- the dequeued cell is a non-mine, so it has a stored count,
          -- which must be 0; its neighbours therefore have no mines
          have hadj0 : adjAt g (r, c) = some 0 := by
            have hd := adjAt_def hc
            have hne := h2 (r, c) (by unfold hasCell; rw [hc]; rfl)
              hmfalse
            rw [hd] at hne ⊢
            cases hcnt : cell.adjMineCount with
            | none => exact absurd hcnt hne
            | some k =>
              rw [hcnt] at ha
              simp at ha
              subst ha
              rfl
          have hnine : ∀ ij ∈ nineAround r c, mineAtI g ij.1 ij.2 = false :=
            h1 (r, c) hadj0
          have hk := keeps_expandFold (nineAround r c) (g, [])
          have hstep :
              openAt ((nineAround r c).foldl expandStep (g, [])).1 x =
                openAt g x :=
            expandFold_mines (nineAround r c) (g, []) hnine x hx
          obtain ⟨new, hqeq, hnew⟩ := expandFold_queue (nineAround r c) (g, [])
          have hqeq' : ((nineAround r c).foldl expandStep (g, [])).2 = new := by
            simpa using hqeq
          have hq1 : ∀ z ∈ rest ++ ((nineAround r c).foldl expandStep (g, [])).2,
              mineAt ((nineAround r c).foldl expandStep (g, [])).1 z = false := by
            intro z hz
            rw [hk.2.1]
            rcases List.mem_append.mp hz with hz1 | hz2
            · exact hq z (List.mem_cons_of_mem _ hz1)
            · rw [hqeq'] at hz2
              obtain ⟨⟨ij, hij, rfl, hi, hj⟩, _⟩ := hnew z hz2
              have := hnine ij hij
              rw [mineAtI_eq, if_pos ⟨hi, hj⟩] at this
              exact this
          have h11 : ∀ z : Nat × Nat,
              adjAt ((nineAround r c).foldl expandStep (g, [])).1 z = some 0 →
              ∀ ij ∈ nineAround z.1 z.2,
                mineAtI ((nineAround r c).foldl expandStep (g, [])).1
                    ij.1 ij.2 = false := by
            intro z hz ij hij
            rw [mineAtI_keeps hk]
            exact h1 z ((hk.2.2.1 z).symm.trans hz) ij hij
          have h21 : ∀ z : Nat × Nat,
              hasCell ((nineAround r c).foldl expandStep (g, [])).1 z →
              mineAt ((nineAround r c).foldl expandStep (g, [])).1 z = false →
              adjAt ((nineAround r c).foldl expandStep (g, [])).1 z ≠ none := by
            intro z hzs hzm
            unfold hasCell at hzs
            rw [hk.2.2.2.1 z.1 z.2] at hzs
            rw [hk.2.1 z] at hzm
            rw [hk.2.2.1 z]
            exact h2 z hzs hzm
          have hx1 : mineAt ((nineAround r c).foldl expandStep (g, [])).1
              x = true := by
            rw [hk.2.1]; exact hx
          rw [ih _ _ hq1 h11 h21 hrun x hx1, hstep]

/-!  Termination and completeness of the flood fill on a flag-free board:
with enough fuel the loop finishes, and at the end every open zero-count
cell reachable from the seed has all of its existing neighbours open.  -/

theorem ffGo_master (g0 : Game) (s : Nat × Nat) :
    ∀ (fuel : Nat) (g : Game) (q : List (Nat × Nat)),
    noFlags g →
    (∀ x, adjAt g x = adjAt g0 x) →
    (∀ r c, (cellAt g r c).isSome = (cellAt g0 r c).isSome) →
    (∀ x ∈ q, (cellAt g x.1 x.2).isSome = true) →
    unopenedCount g + q.length < fuel →
    (∀ x, ZReach g0 s x → zeroAt g0 x → openAt g x = true →
       (x ∈ q ∨ ∀ y, Adjacent x y → hasCell g0 y → openAt g y = true)) →
    ∃ g', ffGo fuel g q = some g' ∧ KeepsCells g g' ∧
      (∀ x, ZReach g0 s x → zeroAt g0 x → openAt g' x = true →
        ∀ y, Adjacent x y → hasCell g0 y → openAt g' y = true) := by
  intro fuel
  induction fuel with
  | zero => intro g q _ _ _ _ hm _; omega
  | succ n ih =>
    intro g q hnf hadj hsome hq hm hinv
    cases q with
    | nil =>
      refine ⟨g, ffGo_nil .., keeps_refl g, ?_⟩
      intro x hz hz0 hopen
      rcases hinv x hz hz0 hopen with hmem | hnb
      · simp at hmem
      · exact hnb
    | cons hd rest =>
      obtain ⟨r, c⟩ := hd
      have hcell : (cellAt g r c).isSome = true :=
        hq (r, c) (List.mem_cons_self ..)
      obtain ⟨cell, hc⟩ := Option.isSome_iff_exists.mp hcell
      by_cases ha : 0 < cell.adjMineCount.getD 0
      · -- a numbered cell: quiet open, then continue with the tail
        have hk := keeps_setOpenQuiet g r c
        have hzcontra : ∀ hz0 : zeroAt g0 (r, c), False := by
          intro hz0
          unfold zeroAt at hz0
          rw [← hadj (r, c), adjAt_def hc] at hz0
          rw [hz0] at ha
          simp at ha
        have hnf1 : noFlags (setOpenQuiet g r c) :=
          fun x => (hk.1 x).trans (hnf x)
        have hadj1 : ∀ x, adjAt (setOpenQuiet g r c) x = adjAt g0 x :=
          fun x => (hk.2.2.1 x).trans (hadj x)
        have hsome1 : ∀ r' c',
            (cellAt (setOpenQuiet g r c) r' c').isSome =
              (cellAt g0 r' c').isSome :=
          fun r' c' => (hk.2.2.2.1 r' c').trans (hsome r' c')
        have hq1 : ∀ x ∈ rest,
            (cellAt (setOpenQuiet g r c) x.1 x.2).isSome = true := by
          intro x hx
          rw [hk.2.2.2.1 x.1 x.2]
          exact hq x (List.mem_cons_of_mem _ hx)
        have hm1 : unopenedCount (setOpenQuiet g r c) + rest.length < n := by
          have := unopenedCount_setOpenQuiet_le g r c
          simp only [List.length_cons] at hm
          omega
        have hinv1 : ∀ x, ZReach g0 s x → zeroAt g0 x →
            openAt (setOpenQuiet g r c) x = true →
            (x ∈ rest ∨ ∀ y, Adjacent x y → hasCell g0 y →
              openAt (setOpenQuiet g r c) y = true) := by
          intro x hz hz0 hopen1
          rcases openAt_setOpenQuiet_src hopen1 with rfl | hopen
          · exact absurd hz0 (fun h => hzcontra h)
          · rcases hinv x hz hz0 hopen with hmem | hnb
            · rcases List.mem_cons.mp hmem with rfl | hmem'
              · exact absurd hz0 (fun h => hzcontra h)
              · exact Or.inl hmem'
            · exact Or.inr fun y hxy hy => hk.2.2.2.2 y (hnb y hxy hy)
        obtain ⟨g', hrun, hk2, hinv2⟩ := ih _ rest hnf1 hadj1 hsome1 hq1
          hm1 hinv1
        exact ⟨g', by rw [ffGo_succ_adj n hc ha]; exact hrun,
               keeps_trans hk hk2, hinv2⟩
      · -- a zero-count (or undefined-count) cell: expand the neighbours
        have hk := keeps_expandFold (nineAround r c) (g, [])
        obtain ⟨new, hqeq, hnew⟩ := expandFold_queue (nineAround r c) (g, [])
        have hqeq' : ((nineAround r c).foldl expandStep (g, [])).2 = new := by
          simpa using hqeq
        have hnf1 : noFlags ((nineAround r c).foldl expandStep (g, [])).1 :=
          fun x => (hk.1 x).trans (hnf x)
        have hadj1 : ∀ x,
            adjAt ((nineAround r c).foldl expandStep (g, [])).1 x =
              adjAt g0 x :=
          fun x => (hk.2.2.1 x).trans (hadj x)
        have hsome1 : ∀ r' c',
            (cellAt ((nineAround r c).foldl expandStep (g, [])).1 r' c').isSome
              = (cellAt g0 r' c').isSome :=
          fun r' c' => (hk.2.2.2.1 r' c').trans (hsome r' c')
        have hq1 : ∀ x ∈ rest ++ ((nineAround r c).foldl expandStep (g, [])).2,
            (cellAt ((nineAround r c).foldl expandStep (g, [])).1
              x.1 x.2).isSome = true := by
          intro x hx
          rw [hk.2.2.2.1 x.1 x.2]
          rcases List.mem_append.mp hx with hx1 | hx2
          · exact hq x (List.mem_cons_of_mem _ hx1)
          · rw [hqeq'] at hx2
            exact (hnew x hx2).2
        have hmeas := expandFold_measure (nineAround r c) (g, []) hnf
        have hm1 : unopenedCount ((nineAround r c).foldl expandStep (g, [])).1
            + (rest ++ ((nineAround r c).foldl expandStep (g, [])).2).length
            < n := by
          simp only [List.length_append]
          simp only [List.length_cons] at hm
          simp only [List.length_nil] at hmeas
          omega
        have hopensall := expandFold_opens_all (nineAround r c) (g, []) hnf
        have hinv1 : ∀ x, ZReach g0 s x → zeroAt g0 x →
            openAt ((nineAround r c).foldl expandStep (g, [])).1 x = true →
            (x ∈ rest ++ ((nineAround r c).foldl expandStep (g, [])).2 ∨
              ∀ y, Adjacent x y → hasCell g0 y →
                openAt ((nineAround r c).foldl expandStep (g, [])).1 y
                  = true) := by
          intro x hz hz0 hopen1
          rcases expandFold_open_src (nineAround r c) (g, []) x hopen1 with
            hopen | hmem
          · rcases hinv x hz hz0 hopen with hmemq | hnb
            · rcases List.mem_cons.mp hmemq with rfl | hmem'
              · -- the dequeued zero cell: its neighbours are now all open
                right
                intro y hxy hy
                have hij := adjacent_mem_nineAround hxy
                have hy1 : (cellAt
                    ((nineAround r c).foldl expandStep (g, [])).1
                    y.1 y.2).isSome = true := by
                  rw [hk.2.2.2.1 y.1 y.2, hsome y.1 y.2]
                  exact hy
                obtain ⟨cell2, hcell2⟩ := Option.isSome_iff_exists.mp hy1
                have hget : intGet
                    ((nineAround r c).foldl expandStep (g, [])).1
                    (y.1 : Int) (y.2 : Int) = some cell2 := by
                  rw [intGet_natCast]
                  exact hcell2
                have hopen2 := hopensall ((y.1 : Int), (y.2 : Int)) hij
                  cell2 hget
                rw [openAt_def hcell2]
                exact hopen2
              · exact Or.inl (List.mem_append_left _ hmem')
            · exact Or.inr fun y hxy hy => hk.2.2.2.2 y (hnb y hxy hy)
          · exact Or.inl (List.mem_append_right _ hmem)
        obtain ⟨g', hrun, hk2, hinv2⟩ := ih _ _ hnf1 hadj1 hsome1 hq1
          hm1 hinv1
        refine ⟨g', ?_, keeps_trans hk hk2, hinv2⟩
        rw [ffGo_succ_exp n hc ha]
        unfold expandNbrs
        exact hrun

/-!  The win check, `onGameOver`, and `GoodState`.  -/

theorem cellAt_noClickAll (g : Game) (r c : Nat) :
    cellAt (noClickAll g) r c =
      (cellAt g r c).map fun cell => { cell with noClick := true } := by
  unfold noClickAll cellAt
  simp only [List.getElem?_map]
  cases g.board[r]? with
  | none => rfl
  | some row => simp [List.getElem?_map]

theorem cellAt_onGameOver (g : Game) (r c : Nat) :
    cellAt (onGameOver g) r c =
      (cellAt g r c).map fun cell => { cell with noClick := true } := by
  unfold onGameOver
  rw [show cellAt { noClickAll g with
      face := if checkWin (noClickAll g) then .cool else .dead } r c =
      cellAt (noClickAll g) r c from rfl]
  exact cellAt_noClickAll g r c

theorem countB_map (f : Cell → Cell) (p : Cell → Bool)
    (h : ∀ c, p (f c) = p c) (b : List (List Cell)) :
    countB p (b.map (List.map f)) = countB p b := by
  unfold countB
  induction b with
  | nil => rfl
  | cons row t ih =>
    simp only [List.map_cons, List.sum_cons]
    rw [List.countP_map]
    have : List.countP (p ∘ f) row = List.countP p row :=
      List.countP_congr fun c _ => by simp [h c]
    simp only [List.map_map] at ih ⊢
    omega

theorem closedCount_noClickAll (g : Game) :
    closedCount (noClickAll g) = closedCount g := by
  rw [closedCount_eq_countB, closedCount_eq_countB]
  exact countB_map (fun cell => { cell with noClick := true })
    (·.cssClosed) (fun c => rfl) g.board

theorem checkWin_noClickAll (g : Game) :
    checkWin (noClickAll g) = checkWin g := by
  unfold checkWin
  rw [closedCount_noClickAll]
  rfl

theorem onGameOver_face (g : Game) :
    (onGameOver g).face = if checkWin g then Face.cool else Face.dead := by
  unfold onGameOver
  simp only
  rw [checkWin_noClickAll]

theorem status_onGameOver (g : Game) :
    status (onGameOver g) = if checkWin g then Status.Won else Status.Lost := by
  unfold status
  rw [onGameOver_face]
  by_cases h : checkWin g
  · simp [h]
  · simp [h]

theorem countB_mono {p q : Cell → Bool} (b : List (List Cell))
    (h : ∀ row ∈ b, ∀ c ∈ row, p c = true → q c = true) :
    countB p b ≤ countB q b := by
  unfold countB
  induction b with
  | nil => exact le_refl _
  | cons row t ih =>
    simp only [List.map_cons, List.sum_cons]
    have h1 : row.countP p ≤ row.countP q :=
      List.countP_mono_left (h row (List.mem_cons_self ..))
    have h2 := ih fun row' hr => h row' (List.mem_cons_of_mem _ hr)
    omega

/-- Under normal play the win check can never hold: flagged cells stay
closed, so when `numFlags = mines` there are at least `mines` closed board
cells, while the check demands exactly `mines - 1` of them (the document
query also counts the permanently closed restart button). -/
theorem checkWin_false_of_goodState {g : Game} (h : GoodState g) :
    checkWin g = false := by
  obtain ⟨hcells, hflags⟩ := h
  by_contra hcw
  rw [Bool.not_eq_false] at hcw
  unfold checkWin at hcw
  obtain ⟨h1, h2⟩ := Bool.and_eq_true_iff.mp hcw
  have h1' : closedCount g + 1 = g.mines := by simpa using h1
  have h2' : g.numFlags = (g.mines : Int) := by simpa using h2
  have hmono : countFlagged g ≤ closedCount g := by
    rw [countFlagged_eq_countB, closedCount_eq_countB]
    apply countB_mono
    intro row hr c hc hflag
    have := hcells row hr c hc
    rw [this.2, this.1 hflag]
    rfl
  rw [hflags] at h2'
  have : countFlagged g = g.mines := by exact_mod_cast h2'
  omega

/-!  Equation lemmas for `setOpenClicked`, and preservation bundles for
the whole player-open path.  -/

theorem soc_none {g : Game} {r c : Nat} (fuel : Nat)
    (h : cellAt g r c = none) : setOpenClicked fuel g r c = some g := by
  unfold setOpenClicked; rw [h]

theorem soc_flagged {g : Game} {r c : Nat} {cell : Cell} (fuel : Nat)
    (h : cellAt g r c = some cell) (hf : cell.isFlagged = true) :
    setOpenClicked fuel g r c = some g := by
  unfold setOpenClicked; rw [h]; simp [hf]

theorem soc_mine {g : Game} {r c : Nat} {cell : Cell} (fuel : Nat)
    (h : cellAt g r c = some cell) (hf : cell.isFlagged = false)
    (hm : cell.isMine = true) :
    setOpenClicked fuel g r c =
      some (revealAllMines (setOpenQuiet g r c)) := by
  unfold setOpenClicked
  rw [h]
  simp only [hf, Bool.false_eq_true, if_false, hm, if_true]
  rw [setOpenQuiet_eq_upd h hf, hm, hf]

theorem soc_pos {g : Game} {r c : Nat} {cell : Cell} (fuel : Nat)
    (h : cellAt g r c = some cell) (hf : cell.isFlagged = false)
    (hm : cell.isMine = false) (ha : (cell.adjMineCount == some 0) = false) :
    setOpenClicked fuel g r c =
      some (if checkWin (setOpenQuiet g r c)
            then onGameOver (setOpenQuiet g r c)
            else setOpenQuiet g r c) := by
  unfold setOpenClicked
  rw [h]
  simp only [hf, Bool.false_eq_true, if_false, hm, ha]
  rw [setOpenQuiet_eq_upd h hf, hm, hf]

theorem soc_zero {g : Game} {r c : Nat} {cell : Cell} (fuel : Nat)
    (h : cellAt g r c = some cell) (hf : cell.isFlagged = false)
    (hm : cell.isMine = false) (ha : (cell.adjMineCount == some 0) = true) :
    setOpenClicked fuel g r c =
      match floodFillCells fuel (setOpenQuiet g r c) r c with
      | none => none
      | some g2 => some (if checkWin g2 then onGameOver g2 else g2) := by
  unfold setOpenClicked
  rw [h]
  simp only [hf, Bool.false_eq_true, if_false, hm, ha, if_true]
  rw [setOpenQuiet_eq_upd h hf, hm, hf]

theorem keeps_noClickAll (g : Game) : KeepsCells g (noClickAll g) := by
  refine ⟨?_, ?_, ?_, ?_, ?_⟩
  · intro x; unfold flagAt; rw [cellAt_noClickAll]; cases cellAt g x.1 x.2 <;> rfl
  · intro x; unfold mineAt; rw [cellAt_noClickAll]; cases cellAt g x.1 x.2 <;> rfl
  · intro x; unfold adjAt; rw [cellAt_noClickAll]; cases cellAt g x.1 x.2 <;> rfl
  · intro r c; rw [cellAt_noClickAll]; cases cellAt g r c <;> rfl
  · intro x h; unfold openAt at *; rw [cellAt_noClickAll]
    cases hc : cellAt g x.1 x.2 with
    | none => rw [hc] at h; exact absurd h (by simp)
    | some cell => rw [hc] at h; exact h

theorem keeps_onGameOver (g : Game) : KeepsCells g (onGameOver g) := by
  have h : ∀ r c, cellAt (onGameOver g) r c = cellAt (noClickAll g) r c := by
    intro r c
    rw [cellAt_onGameOver, cellAt_noClickAll]
  refine ⟨?_, ?_, ?_, ?_, ?_⟩
  · intro x
    have := (keeps_noClickAll g).1 x
    unfold flagAt at *; rw [h]; exact this
  · intro x
    have := (keeps_noClickAll g).2.1 x
    unfold mineAt at *; rw [h]; exact this
  · intro x
    have := (keeps_noClickAll g).2.2.1 x
    unfold adjAt at *; rw [h]; exact this
  · intro r c
    have := (keeps_noClickAll g).2.2.2.1 r c
    rw [h]; exact this
  · intro x hx
    have := (keeps_noClickAll g).2.2.2.2 x hx
    unfold openAt at *; rw [h]; exact this

theorem keeps_revealStep (g : Game) (x : Nat × Nat) :
    KeepsCells g (revealStep g x) := by
  unfold revealStep
  cases cellAt g x.1 x.2 with
  | none => exact keeps_refl g
  | some cell =>
    by_cases hmo : cell.isMine && !cell.isOpen
    · simp only [hmo, if_true]; exact keeps_setOpenQuiet ..
    · simp only [hmo]; exact keeps_refl g

theorem keeps_revealFold (xs : List (Nat × Nat)) :
    ∀ g : Game, KeepsCells g (xs.foldl revealStep g) := by
  induction xs with
  | nil => intro g; exact keeps_refl g
  | cons x t ih =>
    intro g
    simp only [List.foldl_cons]
    exact keeps_trans (keeps_revealStep g x) (ih (revealStep g x))

theorem keeps_revealAllMines (g : Game) : KeepsCells g (revealAllMines g) := by
  unfold revealAllMines
  exact keeps_trans (keeps_revealFold (allCoords g) g)
    (keeps_onGameOver _)

theorem keeps_setOpenClicked (fuel : Nat) :
    ∀ (g : Game) (r c : Nat) {g' : Game},
    setOpenClicked fuel g r c = some g' → KeepsCells g g' := by
  intro g r c g' hrun
  cases hc : cellAt g r c with
  | none => rw [soc_none fuel hc] at hrun; cases hrun; exact keeps_refl _
  | some cell =>
    cases hf : cell.isFlagged with
    | true =>
      rw [soc_flagged fuel hc hf] at hrun; cases hrun; exact keeps_refl _
    | false =>
      cases hm : cell.isMine with
      | true =>
        rw [soc_mine fuel hc hf hm] at hrun
        cases hrun
        exact keeps_trans (keeps_setOpenQuiet g r c)
          (keeps_revealAllMines _)
      | false =>
        cases ha : (cell.adjMineCount == some 0) with
        | false =>
          rw [soc_pos fuel hc hf hm ha] at hrun
          cases hrun
          by_cases hw : checkWin (setOpenQuiet g r c)
          · simp only [hw, if_true]
            exact keeps_trans (keeps_setOpenQuiet g r c)
              (keeps_onGameOver _)
          · simp only [hw, if_false]
            exact keeps_setOpenQuiet g r c
        | true =>
          rw [soc_zero fuel hc hf hm ha] at hrun
          cases hff : floodFillCells fuel (setOpenQuiet g r c) r c with
          | none => rw [hff] at hrun; exact absurd hrun (by simp)
          | some g2 =>
            rw [hff] at hrun
            cases hrun
            have hk1 := keeps_setOpenQuiet g r c
            have hk2 := keeps_ffGo fuel [(r, c)] hff
            by_cases hw : checkWin g2
            · simp only [hw, if_true]
              exact keeps_trans hk1 (keeps_trans hk2 (keeps_onGameOver _))
            · simp only [hw, if_false]
              exact keeps_trans hk1 hk2

/-!  Row/column-count preservation for every engine operation.  -/

theorem dims_ffGo : ∀ (fuel : Nat) (q : List (Nat × Nat)) {g g' : Game},
    ffGo fuel g q = some g' → g'.rows = g.rows ∧ g'.cols = g.cols := by
  intro fuel
  induction fuel with
  | zero =>
    intro q g g' h
    cases q with
    | nil => rw [ffGo_nil] at h; cases h; exact ⟨rfl, rfl⟩
    | cons hd t =>
      obtain ⟨r, c⟩ := hd
      rw [ffGo_zero_cons] at h
      exact absurd h (by simp)
  | succ n ih =>
    intro q g g' h
    cases q with
    | nil => rw [ffGo_nil] at h; cases h; exact ⟨rfl, rfl⟩
    | cons hd t =>
      obtain ⟨r, c⟩ := hd
      cases hc : cellAt g r c with
      | none => rw [ffGo_succ_missing n hc] at h; exact absurd h (by simp)
      | some cell =>
        by_cases ha : 0 < cell.adjMineCount.getD 0
        · rw [ffGo_succ_adj n hc ha] at h
          have h1 := ih t h
          simp only [setOpenQuiet_rows, setOpenQuiet_cols] at h1
          exact h1
        · rw [ffGo_succ_exp n hc ha] at h
          have h1 := ih _ h
          have h2 := expandFold_fields (nineAround r c) (g, [])
          exact ⟨h1.1.trans h2.1, h1.2.trans h2.2.1⟩

@[simp] theorem noClickAll_rows (g : Game) : (noClickAll g).rows = g.rows := rfl

@[simp] theorem noClickAll_cols (g : Game) : (noClickAll g).cols = g.cols := rfl

@[simp] theorem onGameOver_rows (g : Game) : (onGameOver g).rows = g.rows := rfl

@[simp] theorem onGameOver_cols (g : Game) : (onGameOver g).cols = g.cols := rfl

theorem dims_revealStep (g : Game) (x : Nat × Nat) :
    (revealStep g x).rows = g.rows ∧ (revealStep g x).cols = g.cols := by
  unfold revealStep
  cases cellAt g x.1 x.2 with
  | none => exact ⟨rfl, rfl⟩
  | some cell =>
    by_cases hmo : cell.isMine && !cell.isOpen
    · simp [hmo]
    · simp [hmo]

theorem dims_revealFold (xs : List (Nat × Nat)) :
    ∀ g : Game, (xs.foldl revealStep g).rows = g.rows ∧
      (xs.foldl revealStep g).cols = g.cols := by
  induction xs with
  | nil => intro g; exact ⟨rfl, rfl⟩
  | cons x t ih =>
    intro g
    simp only [List.foldl_cons]
    have h1 := dims_revealStep g x
    have h2 := ih (revealStep g x)
    exact ⟨h2.1.trans h1.1, h2.2.trans h1.2⟩

theorem dims_revealAllMines (g : Game) :
    (revealAllMines g).rows = g.rows ∧ (revealAllMines g).cols = g.cols := by
  unfold revealAllMines
  have := dims_revealFold (allCoords g) g
  simp only [onGameOver_rows, onGameOver_cols]
  exact this

theorem dims_setOpenClicked {fuel : Nat} :
    ∀ {g : Game} {r c : Nat} {g' : Game},
    setOpenClicked fuel g r c = some g' →
    g'.rows = g.rows ∧ g'.cols = g.cols := by
  intro g r c g' hrun
  cases hc : cellAt g r c with
  | none => rw [soc_none fuel hc] at hrun; cases hrun; exact ⟨rfl, rfl⟩
  | some cell =>
    cases hf : cell.isFlagged with
    | true => rw [soc_flagged fuel hc hf] at hrun; cases hrun; exact ⟨rfl, rfl⟩
    | false =>
      cases hm : cell.isMine with
      | true =>
        rw [soc_mine fuel hc hf hm] at hrun
        cases hrun
        have := dims_revealAllMines (setOpenQuiet g r c)
        simp only [setOpenQuiet_rows, setOpenQuiet_cols] at this
        exact this
      | false =>
        cases ha : (cell.adjMineCount == some 0) with
        | false =>
          rw [soc_pos fuel hc hf hm ha] at hrun
          cases hrun
          by_cases hw : checkWin (setOpenQuiet g r c) <;> simp [hw]
        | true =>
          rw [soc_zero fuel hc hf hm ha] at hrun
          cases hff : floodFillCells fuel (setOpenQuiet g r c) r c with
          | none => rw [hff] at hrun; exact absurd hrun (by simp)
          | some g2 =>
            rw [hff] at hrun
            cases hrun
            have h1 := dims_ffGo fuel [(r, c)] hff
            simp only [setOpenQuiet_rows, setOpenQuiet_cols] at h1
            by_cases hw : checkWin g2
            · simp only [hw, if_true, onGameOver_rows, onGameOver_cols]
              exact h1
            · simp only [hw, if_false]
              exact h1

/-!  `GoodState` is preserved along the player-open path.  -/

theorem goodState_cell {g : Game} {r c : Nat} {cell : Cell}
    (h : GoodState g) (hc : cellAt g r c = some cell) :
    (cell.isFlagged = true → cell.isOpen = false) ∧
      cell.cssClosed = !cell.isOpen := by
  obtain ⟨row, hb, hrow⟩ := cellAt_elim hc
  have hmem1 : row ∈ g.board := by
    obtain ⟨hlt, hget⟩ := List.getElem?_eq_some.mp hb
    exact hget ▸ List.getElem_mem hlt
  have hmem2 : cell ∈ row := by
    obtain ⟨hlt, hget⟩ := List.getElem?_eq_some.mp hrow
    exact hget ▸ List.getElem_mem hlt
  exact h.1 row hmem1 cell hmem2

theorem countFlagged_setCellG {g : Game} {r c : Nat} {cell : Cell}
    (hc : cellAt g r c = some cell) {x : Cell}
    (hx : x.isFlagged = cell.isFlagged) :
    countFlagged (setCellG g r c x) = countFlagged g := by
  obtain ⟨row, hb, hrow⟩ := cellAt_elim hc
  rw [countFlagged_eq_countB, countFlagged_eq_countB, setCellG_board]
  exact countB_setCellB_same (·.isFlagged) hb hrow (by simp [hx])

theorem goodState_setCellG {g : Game} {r c : Nat} {cell : Cell}
    (h : GoodState g) (hc : cellAt g r c = some cell) {x : Cell}
    (hflag : x.isFlagged = cell.isFlagged)
    (hprop : (x.isFlagged = true → x.isOpen = false) ∧
      x.cssClosed = !x.isOpen) :
    GoodState (setCellG g r c x) := by
  constructor
  · intro row hrow cell2 hcell2
    unfold setCellG setCellB at hrow
    cases hb : g.board[r]? with
    | none =>
      rw [hb] at hrow
      exact h.1 row hrow cell2 hcell2
    | some row0 =>
      rw [hb] at hrow
      rcases List.mem_or_eq_of_mem_set hrow with hrow' | rfl
      · exact h.1 row hrow' cell2 hcell2
      · rcases List.mem_or_eq_of_mem_set hcell2 with hcell2' | rfl
        · have hmem : row0 ∈ g.board := by
            obtain ⟨hlt, hget⟩ := List.getElem?_eq_some.mp hb
            exact hget ▸ List.getElem_mem hlt
          exact h.1 row0 hmem cell2 hcell2'
        · exact hprop
  · rw [countFlagged_setCellG hc hflag]
    rw [show (setCellG g r c x).numFlags = g.numFlags from rfl]
    exact h.2

theorem goodState_setOpenQuiet {g : Game} (h : GoodState g) (r c : Nat) :
    GoodState (setOpenQuiet g r c) := by
  cases hc : cellAt g r c with
  | none => rw [setOpenQuiet_eq_none hc]; exact h
  | some cell =>
    cases hf : cell.isFlagged with
    | true => rw [setOpenQuiet_eq_flagged hc hf]; exact h
    | false =>
      rw [setOpenQuiet_eq_upd hc hf]
      exact goodState_setCellG h hc (by simp)
        ⟨by simp [hf], by simp⟩

theorem goodState_revealFold (xs : List (Nat × Nat)) :
    ∀ {g : Game}, GoodState g → GoodState (xs.foldl revealStep g) := by
  induction xs with
  | nil => intro g h; exact h
  | cons x t ih =>
    intro g h
    simp only [List.foldl_cons]
    apply ih
    unfold revealStep
    cases cellAt g x.1 x.2 with
    | none => exact h
    | some cell =>
      by_cases hmo : cell.isMine && !cell.isOpen
      · simp only [hmo, if_true]; exact goodState_setOpenQuiet h ..
      · simp only [hmo]; exact h

/-- Clicking a mine lands in `onGameOver` with the win check still false,
so the loss face is shown. -/
theorem status_revealAllMines {g : Game} (h : GoodState g) :
    status (revealAllMines g) = Status.Lost := by
  unfold revealAllMines
  rw [status_onGameOver]
  rw [checkWin_false_of_goodState (goodState_revealFold (allCoords g) h)]
  rfl

/-!  The left-click action.  -/

theorem cellAt_setUI (g : Game) (f : Face) (b : Bool) (r c : Nat) :
    cellAt { g with face := f, isRunning := b } r c = cellAt g r c := rfl

theorem goodState_setUI {g : Game} (h : GoodState g) (f : Face) (b : Bool) :
    GoodState { g with face := f, isRunning := b } := by
  constructor
  · exact h.1
  · exact h.2

theorem setCellB_setCellB (b : List (List Cell)) (r c : Nat) (x y : Cell) :
    setCellB (setCellB b r c x) r c y = setCellB b r c y := by
  unfold setCellB
  cases hb : b[r]? with
  | none => simp [hb]
  | some row =>
    simp only [hb]
    have hr : r < b.length := (List.getElem?_eq_some.mp hb).1
    rw [List.getElem?_set_self]
    · show (b.set r (row.set c x)).set r ((row.set c x).set c y) =
        b.set r (row.set c y)
      rw [List.set_set, List.set_set]
    · exact hr

theorem setCellG_setCellG (g : Game) (r c : Nat) (x y : Cell) :
    setCellG (setCellG g r c x) r c y = setCellG g r c y := by
  unfold setCellG
  simp only
  rw [setCellB_setCellB]

/-- Pressing the cell at `(r, c)` first (as the button-0 mousedown does)
makes no difference to the quiet open that follows: the open overwrites
both the `isOpen` and the `closed`-token fields it touched. -/
theorem setOpenQuiet_press {g : Game} {r c : Nat} {cell : Cell}
    (hc : cellAt g r c = some cell) (hf : cell.isFlagged = false) :
    setOpenQuiet { setCellG g r c { cell with cssClosed := false } with
                   face := Face.smile, isRunning := true } r c =
      setOpenQuiet { g with face := Face.smile, isRunning := true } r c := by
  have hc1 : cellAt { setCellG g r c { cell with cssClosed := false } with
      face := Face.smile, isRunning := true } r c =
      some { cell with cssClosed := false } := by
    show cellAt (setCellG g r c { cell with cssClosed := false }) r c = _
    exact cellAt_setCellG_self hc _
  have hc2 : cellAt { g with face := Face.smile, isRunning := true } r c =
      some cell := hc
  rw [setOpenQuiet_eq_upd hc1 hf, setOpenQuiet_eq_upd hc2 hf]
  show { setCellG (setCellG g r c { cell with cssClosed := false }) r c
      { cell with isOpen := true, cssClosed := false } with
      face := Face.smile, isRunning := true } =
    { setCellG g r c { cell with isOpen := true, cssClosed := false } with
      face := Face.smile, isRunning := true }
  rw [setCellG_setCellG]

theorem clickCell_eq {g : Game} {r c : Nat} {cell : Cell} (fuel : Nat)
    (h : cellAt g r c = some cell) (hnc : cell.noClick = false)
    (hf : cell.isFlagged = false) (ho : cell.isOpen = true) :
    clickCell fuel g r c =
      setOpenClicked fuel { g with face := Face.smile, isRunning := true }
        r c := by
  unfold clickCell
  rw [h]
  simp [hnc, hf, ho]

theorem clickCell_eq_closed {g : Game} {r c : Nat} {cell : Cell}
    (fuel : Nat) (h : cellAt g r c = some cell)
    (hnc : cell.noClick = false) (hf : cell.isFlagged = false)
    (ho : cell.isOpen = false) :
    clickCell fuel g r c =
      setOpenClicked fuel
        { setCellG g r c { cell with cssClosed := false } with
          face := Face.smile, isRunning := true } r c := by
  unfold clickCell
  rw [h]
  simp [hnc, hf, ho]

theorem clickCell_noClick {g : Game} {r c : Nat} {cell : Cell} (fuel : Nat)
    (h : cellAt g r c = some cell) (hnc : cell.noClick = true) :
    clickCell fuel g r c = some g := by
  unfold clickCell
  rw [h]
  simp [hnc]

theorem clickCell_missing {g : Game} {r c : Nat} (fuel : Nat)
    (h : cellAt g r c = none) : clickCell fuel g r c = some g := by
  unfold clickCell
  rw [h]

/-- A left click on a flagged cell: the mousedown press drops the
`closed` token of a closed flagged cell (nothing ever restores it), the
mouseup only sets the face and the clock. -/
theorem clickCell_flagged {g : Game} {r c : Nat} {cell : Cell} (fuel : Nat)
    (h : cellAt g r c = some cell) (hnc : cell.noClick = false)
    (hf : cell.isFlagged = true) :
    clickCell fuel g r c =
      some { (if cell.isOpen then g
              else setCellG g r c { cell with cssClosed := false }) with
             face := Face.smile, isRunning := true } := by
  unfold clickCell
  rw [h]
  simp [hnc, hf]

/-- Clicking an unflagged, clickable mine cell: the reveal-and-game-over
path runs and, from any `GoodState`, reports a loss. -/
theorem click_mine_lost {g : Game} {r c : Nat} {cell : Cell} (fuel : Nat)
    (hg : GoodState g) (hc : cellAt g r c = some cell)
    (hm : cell.isMine = true) (hf : cell.isFlagged = false)
    (hnc : cell.noClick = false) :
    ∃ g', clickCell fuel g r c = some g' ∧ status g' = Status.Lost := by
  cases ho : cell.isOpen with
  | true =>
    rw [clickCell_eq fuel hc hnc hf ho]
    have hc1 : cellAt { g with face := Face.smile, isRunning := true } r c =
        some cell := hc
    rw [soc_mine fuel hc1 hf hm]
    refine ⟨_, rfl, ?_⟩
    exact status_revealAllMines
      (goodState_setOpenQuiet (goodState_setUI hg Face.smile true) r c)
  | false =>
    rw [clickCell_eq_closed fuel hc hnc hf ho]
    have hc1 : cellAt { setCellG g r c { cell with cssClosed := false } with
        face := Face.smile, isRunning := true } r c =
        some { cell with cssClosed := false } := by
      show cellAt (setCellG g r c { cell with cssClosed := false }) r c = _
      exact cellAt_setCellG_self hc _
    rw [soc_mine fuel hc1 hf hm]
    rw [setOpenQuiet_press hc hf]
    refine ⟨_, rfl, ?_⟩
    exact status_revealAllMines
      (goodState_setOpenQuiet (goodState_setUI hg Face.smile true) r c)

/-!  The never-open-and-flagged invariant, preserved by every engine
operation.  -/

theorem inv_of_board {g : Game}
    (h : ∀ row ∈ g.board, ∀ cell ∈ row,
      cell.isOpen = true → cell.isFlagged = false) :
    openFlagInv g := by
  intro r c cell hc
  obtain ⟨row, hb, hrow⟩ := cellAt_elim hc
  obtain ⟨hlt1, hget1⟩ := List.getElem?_eq_some.mp hb
  obtain ⟨hlt2, hget2⟩ := List.getElem?_eq_some.mp hrow
  exact h row (hget1 ▸ List.getElem_mem hlt1) cell
    (hget2 ▸ List.getElem_mem hlt2)

theorem inv_setCellG {g : Game} (h : openFlagInv g) (r c : Nat) {x : Cell}
    (hx : x.isOpen = true → x.isFlagged = false) :
    openFlagInv (setCellG g r c x) := by
  intro r' c' cell2 hc2
  rw [cellAt_setCellG] at hc2
  by_cases heq : r = r' ∧ c = c'
  · rw [if_pos heq] at hc2
    cases hc : cellAt g r c with
    | none => rw [hc] at hc2; exact absurd hc2 (by simp)
    | some old =>
      rw [hc] at hc2
      simp only [Option.map] at hc2
      cases hc2
      exact hx
  · rw [if_neg heq] at hc2
    exact h r' c' cell2 hc2

theorem inv_setOpenQuiet {g : Game} (h : openFlagInv g) (r c : Nat) :
    openFlagInv (setOpenQuiet g r c) := by
  cases hc : cellAt g r c with
  | none => rw [setOpenQuiet_eq_none hc]; exact h
  | some cell =>
    cases hf : cell.isFlagged with
    | true => rw [setOpenQuiet_eq_flagged hc hf]; exact h
    | false =>
      rw [setOpenQuiet_eq_upd hc hf]
      exact inv_setCellG h r c fun _ => hf

theorem inv_expandFold (L : List (Int × Int)) :
    ∀ st : Game × List (Nat × Nat), openFlagInv st.1 →
      openFlagInv (L.foldl expandStep st).1 := by
  induction L with
  | nil => intro st h; exact h
  | cons ij t ih =>
    intro st h
    simp only [List.foldl_cons]
    apply ih
    cases hg : intGet st.1 ij.1 ij.2 with
    | none => rw [expandStep_eq_none hg]; exact h
    | some cell =>
      cases ho : cell.isOpen with
      | true => rw [expandStep_eq_open hg ho]; exact h
      | false =>
        rw [expandStep_eq_go hg ho]
        exact inv_setOpenQuiet h ij.1.toNat ij.2.toNat

theorem inv_ffGo : ∀ (fuel : Nat) (q : List (Nat × Nat)) {g g' : Game},
    openFlagInv g → ffGo fuel g q = some g' → openFlagInv g' := by
  intro fuel
  induction fuel with
  | zero =>
    intro q g g' h hrun
    cases q with
    | nil => rw [ffGo_nil] at hrun; cases hrun; exact h
    | cons hd t =>
      obtain ⟨r, c⟩ := hd
      rw [ffGo_zero_cons] at hrun
      exact absurd hrun (by simp)
  | succ n ih =>
    intro q g g' h hrun
    cases q with
    | nil => rw [ffGo_nil] at hrun; cases hrun; exact h
    | cons hd t =>
      obtain ⟨r, c⟩ := hd
      cases hc : cellAt g r c with
      | none =>
        rw [ffGo_succ_missing n hc] at hrun
        exact absurd hrun (by simp)
      | some cell =>
        by_cases ha : 0 < cell.adjMineCount.getD 0
        · rw [ffGo_succ_adj n hc ha] at hrun
          exact ih t (inv_setOpenQuiet h r c) hrun
        · rw [ffGo_succ_exp n hc ha] at hrun
          exact ih _ (inv_expandFold (nineAround r c) (g, []) h) hrun

theorem inv_noClickAll {g : Game} (h : openFlagInv g) :
    openFlagInv (noClickAll g) := by
  intro r c cell2 hc2
  rw [cellAt_noClickAll] at hc2
  cases hc : cellAt g r c with
  | none => rw [hc] at hc2; exact absurd hc2 (by simp)
  | some cell =>
    rw [hc] at hc2
    simp only [Option.map] at hc2
    cases hc2
    exact h r c cell hc

theorem inv_onGameOver {g : Game} (h : openFlagInv g) :
    openFlagInv (onGameOver g) := by
  intro r c cell2 hc2
  rw [cellAt_onGameOver] at hc2
  cases hc : cellAt g r c with
  | none => rw [hc] at hc2; exact absurd hc2 (by simp)
  | some cell =>
    rw [hc] at hc2
    simp only [Option.map] at hc2
    cases hc2
    exact h r c cell hc

theorem inv_revealFold (xs : List (Nat × Nat)) :
    ∀ {g : Game}, openFlagInv g → openFlagInv (xs.foldl revealStep g) := by
  induction xs with
  | nil => intro g h; exact h
  | cons x t ih =>
    intro g h
    simp only [List.foldl_cons]
    apply ih
    unfold revealStep
    cases cellAt g x.1 x.2 with
    | none => exact h
    | some cell =>
      by_cases hmo : cell.isMine && !cell.isOpen
      · simp only [hmo, if_true]; exact inv_setOpenQuiet h x.1 x.2
      · simp only [hmo]; exact h

theorem inv_revealAllMines {g : Game} (h : openFlagInv g) :
    openFlagInv (revealAllMines g) := by
  unfold revealAllMines
  exact inv_onGameOver (inv_revealFold (allCoords g) h)

theorem inv_setOpenClicked {fuel : Nat} :
    ∀ {g : Game} {r c : Nat} {g' : Game}, openFlagInv g →
    setOpenClicked fuel g r c = some g' → openFlagInv g' := by
  intro g r c g' h hrun
  cases hc : cellAt g r c with
  | none => rw [soc_none fuel hc] at hrun; cases hrun; exact h
  | some cell =>
    cases hf : cell.isFlagged with
    | true => rw [soc_flagged fuel hc hf] at hrun; cases hrun; exact h
    | false =>
      cases hm : cell.isMine with
      | true =>
        rw [soc_mine fuel hc hf hm] at hrun
        cases hrun
        exact inv_revealAllMines (inv_setOpenQuiet h r c)
      | false =>
        cases ha : (cell.adjMineCount == some 0) with
        | false =>
          rw [soc_pos fuel hc hf hm ha] at hrun
          cases hrun
          by_cases hw : checkWin (setOpenQuiet g r c)
          · simp only [hw, if_true]
            exact inv_onGameOver (inv_setOpenQuiet h r c)
          · simp only [hw, if_false]
            exact inv_setOpenQuiet h r c
        | true =>
          rw [soc_zero fuel hc hf hm ha] at hrun
          cases hff : floodFillCells fuel (setOpenQuiet g r c) r c with
          | none => rw [hff] at hrun; exact absurd hrun (by simp)
          | some g2 =>
            rw [hff] at hrun
            cases hrun
            have h2 := inv_ffGo fuel [(r, c)] (inv_setOpenQuiet h r c) hff
            by_cases hw : checkWin g2
            · simp only [hw, if_true]; exact inv_onGameOver h2
            · simp only [hw, if_false]; exact h2

theorem cellAt_incFlags (g : Game) (b : Bool) (r c : Nat) :
    cellAt (incFlags g b) r c = cellAt g r c := rfl

theorem setFlagAt_none {g : Game} {r c : Nat}
    (hc : cellAt g r c = none) : setFlagAt g r c = g := by
  unfold setFlagAt; rw [hc]

theorem setFlagAt_open_noop {g : Game} {r c : Nat} {cell : Cell}
    (hc : cellAt g r c = some cell) (ho : cell.isOpen = true) :
    setFlagAt g r c = g := by
  unfold setFlagAt
  rw [hc]
  simp [ho]

theorem setFlagAt_closed {g : Game} {r c : Nat} {cell : Cell}
    (hc : cellAt g r c = some cell) (ho : cell.isOpen = false) :
    setFlagAt g r c =
      incFlags (setCellG g r c { cell with isFlagged := !cell.isFlagged })
        (!cell.isFlagged) := by
  unfold setFlagAt
  rw [hc]
  simp [ho]

theorem inv_setFlagAt {g : Game} (h : openFlagInv g) (r c : Nat) :
    openFlagInv (setFlagAt g r c) := by
  cases hc : cellAt g r c with
  | none => rw [setFlagAt_none hc]; exact h
  | some cell =>
    cases ho : cell.isOpen with
    | true => rw [setFlagAt_open_noop hc ho]; exact h
    | false =>
      rw [setFlagAt_closed hc ho]
      intro r' c' cell2 hc2
      rw [cellAt_incFlags] at hc2
      exact inv_setCellG h r c (fun hcontra => absurd hcontra (by simp [ho]))
        r' c' cell2 hc2

theorem inv_chordFold {fuel : Nat} (L : List (Int × Int)) :
    ∀ {g g' : Game}, openFlagInv g →
      L.foldlM (chordStep fuel) g = some g' → openFlagInv g' := by
  induction L with
  | nil => intro g g' h hrun; cases hrun; exact h
  | cons ij t ih =>
    intro g g' h hrun
    rw [List.foldlM_cons] at hrun
    cases hstep : chordStep fuel g ij with
    | none => rw [hstep] at hrun; exact absurd hrun (by simp)
    | some g1 =>
      rw [hstep] at hrun
      have hrun2 : t.foldlM (chordStep fuel) g1 = some g' := by
        simpa using hrun
      have h1 : openFlagInv g1 := by
        unfold chordStep at hstep
        by_cases hlim : isInRowLimit g ij.1 ∧ isInColLimit g ij.2
        · rw [if_pos hlim] at hstep
          cases hg : intGet g ij.1 ij.2 with
          | none => rw [hg] at hstep; cases hstep; exact h
          | some cell =>
            rw [hg] at hstep
            by_cases hf : cell.isFlagged
            · simp only [hf, if_true] at hstep; cases hstep; exact h
            · simp only [hf, Bool.false_eq_true, if_false] at hstep
              exact inv_setOpenClicked h hstep
        · rw [if_neg hlim] at hstep; cases hstep; exact h
      exact ih h1 hrun2

theorem inv_openAdjacentCells {fuel : Nat} {g g' : Game} {r c : Nat}
    (h : openFlagInv g) (hrun : openAdjacentCells fuel g r c = some g') :
    openFlagInv g' := by
  unfold openAdjacentCells at hrun
  by_cases hcan : canOpenAdjacentCells g r c
  · rw [if_pos hcan] at hrun
    exact inv_chordFold _ h hrun
  · rw [if_neg hcan] at hrun
    cases hrun
    exact h

theorem inv_runEOp {fuel : Nat} {g g' : Game} {op : EOp}
    (h : openFlagInv g) (hrun : runEOp fuel g op = some g') :
    openFlagInv g' := by
  cases op with
  | openC r c => exact inv_setOpenClicked h hrun
  | flood r c =>
    exact inv_ffGo fuel [(r, c)] h hrun
  | chord r c => exact inv_openAdjacentCells h hrun
  | flagT r c => cases hrun; exact inv_setFlagAt h r c
  | reveal => cases hrun; exact inv_revealAllMines h

theorem inv_runEOps {fuel : Nat} :
    ∀ (ops : List EOp) {g g' : Game}, openFlagInv g →
      runEOps fuel ops g = some g' → openFlagInv g' := by
  intro ops
  induction ops with
  | nil => intro g g' h hrun; cases hrun; exact h
  | cons op t ih =>
    intro g g' h hrun
    unfold runEOps at hrun
    cases hstep : runEOp fuel g op with
    | none => rw [hstep] at hrun; exact absurd hrun (by simp)
    | some g1 =>
      rw [hstep] at hrun
      exact ih (inv_runEOp h hstep) hrun

/-!  The chord loop opens every unflagged in-limit position of its 3×3
block.  -/

theorem intGet_nonneg (g : Game) {i j : Int} (hi : 0 ≤ i) (hj : 0 ≤ j) :
    intGet g i j = cellAt g i.toNat j.toNat := by
  unfold intGet
  rw [if_pos ⟨hi, hj⟩]

theorem soc_opens {fuel : Nat} {g : Game} {r c : Nat} {cell : Cell}
    {g' : Game} (hc : cellAt g r c = some cell)
    (hf : cell.isFlagged = false)
    (hrun : setOpenClicked fuel g r c = some g') :
    openAt g' (r, c) = true := by
  have hopen1 : openAt (setOpenQuiet g r c) (r, c) = true :=
    openAt_setOpenQuiet_self hc hf
  cases hm : cell.isMine with
  | true =>
    rw [soc_mine fuel hc hf hm] at hrun
    cases hrun
    exact (keeps_revealAllMines _).2.2.2.2 _ hopen1
  | false =>
    cases ha : (cell.adjMineCount == some 0) with
    | false =>
      rw [soc_pos fuel hc hf hm ha] at hrun
      cases hrun
      by_cases hw : checkWin (setOpenQuiet g r c)
      · simp only [hw, if_true]
        exact (keeps_onGameOver _).2.2.2.2 _ hopen1
      · simp only [hw, if_false]
        exact hopen1
    | true =>
      rw [soc_zero fuel hc hf hm ha] at hrun
      cases hff : floodFillCells fuel (setOpenQuiet g r c) r c with
      | none => rw [hff] at hrun; exact absurd hrun (by simp)
      | some g2 =>
        rw [hff] at hrun
        cases hrun
        have hopen2 : openAt g2 (r, c) = true :=
          (keeps_ffGo fuel [(r, c)] hff).2.2.2.2 _ hopen1
        by_cases hw : checkWin g2
        · simp only [hw, if_true]
          exact (keeps_onGameOver _).2.2.2.2 _ hopen2
        · simp only [hw, if_false]
          exact hopen2

theorem chordStep_keeps {fuel : Nat} {g g1 : Game} {ij : Int × Int}
    (h : chordStep fuel g ij = some g1) :
    KeepsCells g g1 ∧ g1.rows = g.rows ∧ g1.cols = g.cols := by
  unfold chordStep at h
  by_cases hlim : isInRowLimit g ij.1 ∧ isInColLimit g ij.2
  · rw [if_pos hlim] at h
    cases hg : intGet g ij.1 ij.2 with
    | none => rw [hg] at h; cases h; exact ⟨keeps_refl _, rfl, rfl⟩
    | some cell =>
      rw [hg] at h
      by_cases hf : cell.isFlagged
      · simp only [hf, if_true] at h; cases h; exact ⟨keeps_refl _, rfl, rfl⟩
      · simp only [hf, Bool.false_eq_true, if_false] at h
        exact ⟨keeps_setOpenClicked fuel _ _ _ h, dims_setOpenClicked h⟩
  · rw [if_neg hlim] at h; cases h; exact ⟨keeps_refl _, rfl, rfl⟩

theorem chordFold_run {fuel : Nat} (L : List (Int × Int)) :
    ∀ {g g' : Game}, L.foldlM (chordStep fuel) g = some g' →
    KeepsCells g g' ∧ g'.rows = g.rows ∧ g'.cols = g.cols := by
  induction L with
  | nil => intro g g' h; cases h; exact ⟨keeps_refl _, rfl, rfl⟩
  | cons ij t ih =>
    intro g g' hrun
    rw [List.foldlM_cons] at hrun
    cases hstep : chordStep fuel g ij with
    | none => rw [hstep] at hrun; exact absurd hrun (by simp)
    | some g1 =>
      rw [hstep] at hrun
      have hrun2 : t.foldlM (chordStep fuel) g1 = some g' := by
        simpa using hrun
      obtain ⟨hk1, hr1, hc1⟩ := chordStep_keeps hstep
      obtain ⟨hk2, hr2, hc2⟩ := ih hrun2
      exact ⟨keeps_trans hk1 hk2, hr2.trans hr1, hc2.trans hc1⟩

theorem chordFold_opens {fuel : Nat} (L : List (Int × Int)) :
    ∀ {g g' : Game}, L.foldlM (chordStep fuel) g = some g' →
    ∀ ij ∈ L, isInRowLimit g ij.1 → isInColLimit g ij.2 →
      (cellAt g ij.1.toNat ij.2.toNat).isSome = true →
      flagAt g (ij.1.toNat, ij.2.toNat) = false →
      openAt g' (ij.1.toNat, ij.2.toNat) = true := by
  induction L with
  | nil => intro g g' _ ij hmem; simp at hmem
  | cons ij0 t ih =>
    intro g g' hrun ij hmem hrl hcl hsome hflag
    rw [List.foldlM_cons] at hrun
    cases hstep : chordStep fuel g ij0 with
    | none => rw [hstep] at hrun; exact absurd hrun (by simp)
    | some g1 =>
      rw [hstep] at hrun
      have hrun2 : t.foldlM (chordStep fuel) g1 = some g' := by
        simpa using hrun
      obtain ⟨hk1, hr1, hc1⟩ := chordStep_keeps hstep
      obtain ⟨hk2, _, _⟩ := chordFold_run t hrun2
      rcases List.mem_cons.mp hmem with rfl | hmem'
      · -- this is the position handled by the first step
        obtain ⟨cell, hcell⟩ := Option.isSome_iff_exists.mp hsome
        have hg : intGet g ij.1 ij.2 = some cell := by
          rw [intGet_nonneg g hrl.1 hcl.1]
          exact hcell
        have hf : cell.isFlagged = false := by
          have := flagAt_def hcell
          rw [← this]
          exact hflag
        have hstep2 : setOpenClicked fuel g ij.1.toNat ij.2.toNat =
            some g1 := by
          unfold chordStep at hstep
          rw [if_pos ⟨hrl, hcl⟩, hg] at hstep
          simpa [hf] using hstep
        exact hk2.2.2.2.2 _ (soc_opens hcell hf hstep2)
      · -- handled later; transfer the hypotheses across the first step
        apply ih hrun2 ij hmem'
        · unfold isInRowLimit at *
          rw [hr1]
          exact hrl
        · unfold isInColLimit at *
          rw [hc1]
          exact hcl
        · rw [hk1.2.2.2.1]
          exact hsome
        · rw [hk1.1]
          exact hflag

theorem adjacent_mem_around3x3 {r c : Nat} {y : Nat × Nat}
    (h : Adjacent (r, c) y) :
    ((y.1 : Int), (y.2 : Int)) ∈ around3x3 (r : Int) (c : Int) := by
  obtain ⟨y1, y2⟩ := y
  obtain ⟨hne, h1, h2⟩ := h
  simp only at h1 h2
  have hr : -1 ≤ (r : Int) - y1 ∧ (r : Int) - y1 ≤ 1 := by omega
  have hc : -1 ≤ (c : Int) - y2 ∧ (c : Int) - y2 ≤ 1 := by omega
  simp only [around3x3, threeAround, List.flatMap_cons, List.map_cons,
    List.map_nil, List.flatMap_nil, List.append_nil, List.mem_append,
    List.mem_cons, List.not_mem_nil, or_false, Prod.mk.injEq]
  omega

/-!  Correctness of `checkAdjacentMines`: despite the odd guard, for an
in-bounds non-mine centre it computes exactly the Moore-neighbourhood
mine count.  -/

theorem mineAtI_out_row {g : Game} (hlen : g.board.length = g.rows)
    {i : Int} (hout : ¬ (0 ≤ i ∧ i < (g.rows : Int))) (j : Int) :
    mineAtI g i j = false := by
  unfold mineAtI intGet
  by_cases hs : 0 ≤ i ∧ 0 ≤ j
  · rw [if_pos hs]
    have hge : g.rows ≤ i.toNat := by omega
    unfold cellAt
    rw [List.getElem?_eq_none (by omega)]
    rfl
  · rw [if_neg hs]

theorem inner_adj_loop (g : Game) (r c : Nat) (hc : c < g.cols) (i : Int)
    (cnt : Nat) :
    (threeAround (c : Int)).foldl
      (fun cnt2 j =>
        if ¬ isInColLimit g j ∧ i = (r : Int) ∧ j = (c : Int) then cnt2
        else cnt2 + (if mineAtI g i j then 1 else 0))
      cnt =
    cnt + (if mineAtI g i ((c : Int) - 1) then 1 else 0) +
      (if mineAtI g i (c : Int) then 1 else 0) +
      (if mineAtI g i ((c : Int) + 1) then 1 else 0) := by
  have hcl : isInColLimit g (c : Int) := ⟨Int.natCast_nonneg c, by omega⟩
  simp only [threeAround, List.foldl_cons, List.foldl_nil]
  rw [if_neg (by intro h; omega), if_neg (by intro h; exact h.1 hcl),
    if_neg (by intro h; omega)]

theorem inner_adj_loop_mid (g : Game) (r c : Nat) (hc : c < g.cols)
    (cnt : Nat) :
    (threeAround (c : Int)).foldl
      (fun cnt2 j =>
        if ¬ isInColLimit g j ∧ True ∧ j = (c : Int) then cnt2
        else cnt2 + (if mineAtI g (r : Int) j then 1 else 0))
      cnt =
    cnt + (if mineAtI g (r : Int) ((c : Int) - 1) then 1 else 0) +
      (if mineAtI g (r : Int) (c : Int) then 1 else 0) +
      (if mineAtI g (r : Int) ((c : Int) + 1) then 1 else 0) := by
  have hcl : isInColLimit g (c : Int) := ⟨Int.natCast_nonneg c, by omega⟩
  simp only [threeAround, List.foldl_cons, List.foldl_nil]
  rw [if_neg (by intro h; omega), if_neg (by intro h; exact h.1 hcl),
    if_neg (by intro h; omega)]

theorem checkAdjacentMines_eq_moore (g : Game) (hlen : g.board.length = g.rows)
    (r c : Nat) (hr : r < g.rows) (hc : c < g.cols)
    (hnm : mineAtI g (r : Int) (c : Int) = false) :
    checkAdjacentMines g (r : Int) (c : Int) = mooreMineCount g r c := by
  unfold checkAdjacentMines
  rw [show threeAround (r : Int) =
    [(r : Int) - 1, (r : Int), (r : Int) + 1] from rfl]
  simp only [List.foldl_cons, List.foldl_nil]
  have hrl : isInRowLimit g (r : Int) := ⟨Int.natCast_nonneg r, by omega⟩
  rw [if_pos hrl]
  rw [inner_adj_loop g r c hc ((r : Int) - 1),
    inner_adj_loop_mid g r c hc,
    inner_adj_loop g r c hc ((r : Int) + 1)]
  unfold mooreMineCount
  rw [← List.countP_eq_length_filter]
  simp only [mooreOffsets, List.countP_cons, List.countP_nil,
    decide_eq_true_eq]
  simp only [← Int.sub_eq_add_neg, Int.add_zero]
  rw [hnm]
  simp only [Bool.false_eq_true, if_false]
  by_cases h1 : isInRowLimit g ((r : Int) - 1) <;>
    by_cases h3 : isInRowLimit g ((r : Int) + 1)
  · simp only [h1, h3, if_true]
    omega
  · simp only [h1, h3, if_true, if_false]
    simp only [mineAtI_out_row hlen h3, Bool.false_eq_true, if_false]
    omega
  · simp only [h1, h3, if_true, if_false]
    simp only [mineAtI_out_row hlen h1, Bool.false_eq_true, if_false]
    omega
  · simp only [h1, h3, if_false]
    simp only [mineAtI_out_row hlen h1, mineAtI_out_row hlen h3,
      Bool.false_eq_true, if_false]
    omega

/-!  Board construction: shape and cell access.  -/

theorem mapIdxL_getElem? {α β : Type} (f : Nat → α → β) :
    ∀ (l : List α) (n i : Nat),
    (mapIdxL f n l)[i]? = (l[i]?).map (f (n + i)) := by
  intro l
  induction l with
  | nil => intro n i; simp [mapIdxL]
  | cons a t ih =>
    intro n i
    cases i with
    | zero => simp [mapIdxL]
    | succ i =>
      simp only [mapIdxL, List.getElem?_cons_succ]
      rw [ih (n + 1) i]
      have : n + 1 + i = n + (i + 1) := by omega
      rw [this]

theorem mapIdxL_length {α β : Type} (f : Nat → α → β) :
    ∀ (l : List α) (n : Nat), (mapIdxL f n l).length = l.length := by
  intro l
  induction l with
  | nil => intro n; rfl
  | cons a t ih => intro n; simp [mapIdxL, ih]

theorem cellAt_setCellVals (g : Game) (r c : Nat) :
    cellAt (setCellVals g) r c = (cellAt g r c).map fun cell =>
      if cell.isMine then cell
      else { cell with
             adjMineCount :=
               some (checkAdjacentMines g (r : Int) (c : Int)) } := by
  unfold setCellVals cellAt
  simp only
  rw [mapIdxL_getElem?]
  cases g.board[r]? with
  | none => rfl
  | some row =>
    simp only [Option.map_some', Option.some_bind]
    rw [mapIdxL_getElem?]
    simp only [Nat.zero_add]

theorem mineAt_setCellVals (g : Game) (x : Nat × Nat) :
    mineAt (setCellVals g) x = mineAt g x := by
  unfold mineAt
  rw [cellAt_setCellVals]
  cases cellAt g x.1 x.2 with
  | none => rfl
  | some cell =>
    simp only [Option.map_some]
    by_cases hm : cell.isMine
    · simp [hm]
    · simp [hm]

theorem isSome_setCellVals (g : Game) (r c : Nat) :
    (cellAt (setCellVals g) r c).isSome = (cellAt g r c).isSome := by
  rw [cellAt_setCellVals]
  cases cellAt g r c <;> rfl

theorem mineAtI_setCellVals (g : Game) (i j : Int) :
    mineAtI (setCellVals g) i j = mineAtI g i j := by
  rw [mineAtI_eq, mineAtI_eq]
  by_cases hs : 0 ≤ i ∧ 0 ≤ j
  · rw [if_pos hs, if_pos hs, mineAt_setCellVals]
  · rw [if_neg hs, if_neg hs]

theorem mooreMineCount_setCellVals (g : Game) (r c : Nat) :
    mooreMineCount (setCellVals g) r c = mooreMineCount g r c := by
  unfold mooreMineCount
  congr 1
  apply List.filter_congr
  intro d _
  rw [mineAtI_setCellVals]

@[simp] theorem setCellVals_rows (g : Game) : (setCellVals g).rows = g.rows :=
  rfl

@[simp] theorem setCellVals_cols (g : Game) : (setCellVals g).cols = g.cols :=
  rfl

@[simp] theorem setCellVals_mines (g : Game) :
    (setCellVals g).mines = g.mines := rfl

theorem rect_setCellVals {g : Game} (h : rect g) : rect (setCellVals g) := by
  obtain ⟨h1, h2⟩ := h
  constructor
  · unfold setCellVals
    simp only
    rw [mapIdxL_length]
    exact h1
  · intro row hrow
    rw [List.mem_iff_getElem?] at hrow
    obtain ⟨i, hi⟩ := hrow
    unfold setCellVals at hi
    simp only at hi
    rw [mapIdxL_getElem?] at hi
    cases hb : g.board[i]? with
    | none => rw [hb] at hi; exact absurd hi (by simp)
    | some row0 =>
      rw [hb] at hi
      simp only [Option.map_some', Option.some.injEq] at hi
      have hmem0 : row0 ∈ g.board :=
        List.mem_iff_getElem?.mpr ⟨i, hb⟩
      rw [← hi, mapIdxL_length]
      exact h2 row0 hmem0

theorem rect_initGame (rows cols mines : Nat) :
    rect (initGame rows cols mines) := by
  constructor
  · simp [initGame, createBoard]
  · intro row hrow
    simp only [initGame, createBoard, List.mem_map] at hrow
    obtain ⟨i, _, rfl⟩ := hrow
    simp [initGame]

theorem rect_setCellG {g : Game} (h : rect g) (r c : Nat) (x : Cell) :
    rect (setCellG g r c x) := by
  obtain ⟨h1, h2⟩ := h
  constructor
  · rw [setCellG_board]
    unfold setCellB
    cases g.board[r]? with
    | none => exact h1
    | some row => rw [List.length_set]; exact h1
  · intro row hrow
    rw [setCellG_board] at hrow
    unfold setCellB at hrow
    cases hb : g.board[r]? with
    | none => rw [hb] at hrow; exact h2 row hrow
    | some row0 =>
      rw [hb] at hrow
      rcases List.mem_or_eq_of_mem_set hrow with hrow' | rfl
      · exact h2 row hrow'
      · rw [List.length_set]
        exact h2 row0 (List.mem_iff_getElem?.mpr ⟨r, hb⟩)

theorem cellAt_bounds {g : Game} {r c : Nat} {cell : Cell}
    (hc : cellAt g r c = some cell) (h : rect g) :
    r < g.rows ∧ c < g.cols := by
  obtain ⟨row, hb, hrow⟩ := cellAt_elim hc
  obtain ⟨hlt1, _⟩ := List.getElem?_eq_some.mp hb
  obtain ⟨hlt2, _⟩ := List.getElem?_eq_some.mp hrow
  have hmem : row ∈ g.board := List.mem_iff_getElem?.mpr ⟨r, hb⟩
  exact ⟨h.1 ▸ hlt1, h.2 row hmem ▸ hlt2⟩

theorem mineAt_setCellG (g : Game) (r c : Nat) (x : Cell) (y : Nat × Nat) :
    mineAt (setCellG g r c x) y =
      if r = y.1 ∧ c = y.2 ∧ (cellAt g r c).isSome then x.isMine
      else mineAt g y := by
  unfold mineAt
  rw [cellAt_setCellG]
  by_cases heq : r = y.1 ∧ c = y.2
  · rw [if_pos heq]
    cases hc : cellAt g r c with
    | none =>
      rw [if_neg (by simp [hc, heq])]
      obtain ⟨h1, h2⟩ := heq
      subst h1; subst h2
      rw [hc]
      rfl
    | some cell => rw [if_pos ⟨heq.1, heq.2, by simp [hc]⟩]; rfl
  · rw [if_neg heq, if_neg (by intro h; exact heq ⟨h.1, h.2.1⟩)]

/-!  `placeMines` places exactly `mines` mines (when it completes).  -/

theorem placeMinesGo_nil (g : Game) (placed : List (Nat × Nat)) :
    placeMinesGo g [] placed =
      if placed.length < g.mines then none else some g := rfl

theorem placeMinesGo_cons (g : Game) (r c : Nat)
    (rest placed : List (Nat × Nat)) :
    placeMinesGo g ((r, c) :: rest) placed =
      if placed.length < g.mines then
        (if (r, c) ∈ placed then placeMinesGo g rest placed
         else
           match setMineAt g r c with
           | none => none
           | some g1 => placeMinesGo g1 rest (placed ++ [(r, c)]))
      else some g := rfl

theorem placeMinesGo_count :
    ∀ (stream : List (Nat × Nat)) (placed : List (Nat × Nat)) (g : Game)
      {g' : Game},
    (∀ x : Nat × Nat, mineAt g x = true ↔ x ∈ placed) →
    placed.Nodup →
    countMines g = placed.length →
    placed.length ≤ g.mines →
    placeMinesGo g stream placed = some g' →
    countMines g' = g.mines := by
  intro stream
  induction stream with
  | nil =>
    intro placed g g' hpm hnd hcnt hle hrun
    rw [placeMinesGo_nil] at hrun
    by_cases hlt : placed.length < g.mines
    · rw [if_pos hlt] at hrun; exact absurd hrun (by simp)
    · rw [if_neg hlt] at hrun; cases hrun; omega
  | cons hd rest ih =>
    intro placed g g' hpm hnd hcnt hle hrun
    obtain ⟨r, c⟩ := hd
    rw [placeMinesGo_cons] at hrun
    by_cases hlt : placed.length < g.mines
    · rw [if_pos hlt] at hrun
      by_cases hmem : (r, c) ∈ placed
      · rw [if_pos hmem] at hrun
        exact ih placed g hpm hnd hcnt hle hrun
      · rw [if_neg hmem] at hrun
        cases hsm : setMineAt g r c with
        | none => rw [hsm] at hrun; exact absurd hrun (by simp)
        | some g1 =>
          rw [hsm] at hrun
          unfold setMineAt at hsm
          cases hc : cellAt g r c with
          | none => rw [hc] at hsm; exact absurd hsm (by simp)
          | some cell =>
            rw [hc] at hsm
            simp only [Option.some.injEq] at hsm
            subst hsm
            have hnotmine : cell.isMine = false := by
              have := hpm (r, c)
              rw [mineAt_def hc] at this
              cases hmc : cell.isMine with
              | false => rfl
              | true => exact absurd (this.mp hmc) hmem
            have hpm1 : ∀ x : Nat × Nat,
                mineAt (setCellG g r c { cell with isMine := true }) x = true
                  ↔ x ∈ placed ++ [(r, c)] := by
              intro x
              rw [mineAt_setCellG]
              by_cases heq : r = x.1 ∧ c = x.2 ∧ (cellAt g r c).isSome
              · rw [if_pos heq]
                obtain ⟨h1, h2, _⟩ := heq
                have hx : x = (r, c) := by
                  obtain ⟨x1, x2⟩ := x
                  simp only at h1 h2
                  simp [h1, h2]
                subst hx
                simp
              · rw [if_neg heq]
                have hxne : x ≠ (r, c) := by
                  intro hcontra
                  subst hcontra
                  exact heq ⟨rfl, rfl, by simp [hc]⟩
                rw [hpm x]
                simp [hxne]
            have hnd1 : (placed ++ [(r, c)]).Nodup := by
              simp [List.nodup_append, hnd, hmem]
            have hcnt1 : countMines (setCellG g r c
                { cell with isMine := true }) =
                (placed ++ [(r, c)]).length := by
              obtain ⟨row, hb, hrow⟩ := cellAt_elim hc
              have := countB_setCellB (·.isMine) hb hrow
                { cell with isMine := true }
              simp only [hnotmine, Bool.false_eq_true, if_false, if_true] at this
              rw [countMines_eq_countB, setCellG_board]
              rw [countMines_eq_countB] at hcnt
              simp only [List.length_append, List.length_cons,
                List.length_nil]
              omega
            have hle1 : (placed ++ [(r, c)]).length ≤
                (setCellG g r c { cell with isMine := true }).mines := by
              simp only [List.length_append, List.length_cons,
                List.length_nil, setCellG_mines]
              omega
            have := ih (placed ++ [(r, c)]) _ hpm1 hnd1 hcnt1 hle1 hrun
            rw [this]
            rfl
    · rw [if_neg hlt] at hrun; cases hrun; omega

theorem mineAt_initGame (rows cols mines : Nat) (x : Nat × Nat) :
    mineAt (initGame rows cols mines) x = false := by
  unfold mineAt cellAt initGame createBoard
  simp only [List.getElem?_map]
  cases (List.range rows)[x.1]? with
  | none => rfl
  | some i =>
    simp only [Option.map_some', Option.some_bind, List.getElem?_map]
    cases (List.range cols)[x.2]? with
    | none => rfl
    | some j => rfl

theorem countMines_initGame (rows cols mines : Nat) :
    countMines (initGame rows cols mines) = 0 := by
  rw [countMines_eq_countB]
  show countB (·.isMine)
    ((List.range rows).map fun _ => (List.range cols).map fun _ => initCell)
    = 0
  unfold countB
  rw [List.map_map]
  apply List.sum_eq_zero
  intro x hx
  rw [List.mem_map] at hx
  obtain ⟨i, _, rfl⟩ := hx
  show List.countP (·.isMine) ((List.range cols).map fun _ => initCell) = 0
  rw [List.countP_eq_zero]
  intro a ha
  rw [List.mem_map] at ha
  obtain ⟨j, _, rfl⟩ := ha
  decide

theorem countP_mapIdxL {α : Type} (p : α → Bool) (f : Nat → α → α)
    (hf : ∀ i a, p (f i a) = p a) :
    ∀ (l : List α) (n : Nat), (mapIdxL f n l).countP p = l.countP p := by
  intro l
  induction l with
  | nil => intro n; rfl
  | cons a t ih =>
    intro n
    simp only [mapIdxL, List.countP_cons, ih (n + 1), hf n a]

theorem countMines_setCellVals (g : Game) :
    countMines (setCellVals g) = countMines g := by
  rw [countMines_eq_countB, countMines_eq_countB]
  unfold setCellVals countB
  simp only
  congr 1
  rw [show mapIdxL (fun r row => mapIdxL (fun c cell =>
      if cell.isMine then cell
      else { cell with
             adjMineCount := some (checkAdjacentMines g (r : Int) (c : Int)) })
      0 row) 0 g.board = mapIdxL (fun r row => mapIdxL (fun c cell =>
      if cell.isMine then cell
      else { cell with
             adjMineCount := some (checkAdjacentMines g (r : Int) (c : Int)) })
      0 row) 0 g.board from rfl]
  -- map the counting through both indexed maps
  have : ∀ (b : List (List Cell)) (n : Nat),
      (mapIdxL (fun r row => mapIdxL (fun c cell =>
        if cell.isMine then cell
        else { cell with
               adjMineCount :=
                 some (checkAdjacentMines g (r : Int) (c : Int)) })
        0 row) n b).map (List.countP (·.isMine)) =
      b.map (List.countP (·.isMine)) := by
    intro b
    induction b with
    | nil => intro n; rfl
    | cons row t iht =>
      intro n
      simp only [mapIdxL, List.map_cons, iht (n + 1)]
      congr 1
      apply countP_mapIdxL
      intro i a
      by_cases hm : a.isMine
      · simp [hm]
      · simp [hm]
  rw [this g.board 0]

theorem placeMinesGo_props :
    ∀ (stream placed : List (Nat × Nat)) (g : Game) {g' : Game},
    placeMinesGo g stream placed = some g' →
    g'.rows = g.rows ∧ g'.cols = g.cols ∧ g'.mines = g.mines ∧
      (rect g → rect g') := by
  intro stream
  induction stream with
  | nil =>
    intro placed g g' hrun
    rw [placeMinesGo_nil] at hrun
    by_cases hlt : placed.length < g.mines
    · rw [if_pos hlt] at hrun; exact absurd hrun (by simp)
    · rw [if_neg hlt] at hrun; cases hrun; exact ⟨rfl, rfl, rfl, id⟩
  | cons hd rest ih =>
    intro placed g g' hrun
    obtain ⟨r, c⟩ := hd
    rw [placeMinesGo_cons] at hrun
    by_cases hlt : placed.length < g.mines
    · rw [if_pos hlt] at hrun
      by_cases hmem : (r, c) ∈ placed
      · rw [if_pos hmem] at hrun
        exact ih placed g hrun
      · rw [if_neg hmem] at hrun
        cases hsm : setMineAt g r c with
        | none => rw [hsm] at hrun; exact absurd hrun (by simp)
        | some g1 =>
          rw [hsm] at hrun
          unfold setMineAt at hsm
          cases hc : cellAt g r c with
          | none => rw [hc] at hsm; exact absurd hsm (by simp)
          | some cell =>
            rw [hc] at hsm
            simp only [Option.some.injEq] at hsm
            subst hsm
            obtain ⟨h1, h2, h3, h4⟩ := ih _ _ hrun
            refine ⟨h1.trans rfl, h2.trans rfl, h3.trans rfl, fun hr => ?_⟩
            exact h4 (rect_setCellG hr r c _)
    · rw [if_neg hlt] at hrun; cases hrun; exact ⟨rfl, rfl, rfl, id⟩

/-- Claim C7 core: a completed construction has exactly `mines` mines. -/
theorem mkGame_mine_count {rows cols mines : Nat}
    {stream : List (Nat × Nat)} {g : Game}
    (hmk : mkGame rows cols mines stream = some g) :
    countMines g = mines := by
  unfold mkGame at hmk
  cases hpm : placeMines (initGame rows cols mines) stream with
  | none => rw [hpm] at hmk; exact absurd hmk (by simp)
  | some g1 =>
    rw [hpm] at hmk
    simp only [Option.map_some', Option.some.injEq] at hmk
    subst hmk
    rw [countMines_setCellVals]
    unfold placeMines at hpm
    have := placeMinesGo_count stream [] (initGame rows cols mines)
      (fun x => by
        rw [mineAt_initGame]
        simp)
      List.nodup_nil
      (by rw [countMines_initGame]; rfl)
      (by simp)
      hpm
    rw [this]
    rfl

theorem mkGame_rect {rows cols mines : Nat} {stream : List (Nat × Nat)}
    {g : Game} (hmk : mkGame rows cols mines stream = some g) :
    rect g := by
  unfold mkGame at hmk
  cases hpm : placeMines (initGame rows cols mines) stream with
  | none => rw [hpm] at hmk; exact absurd hmk (by simp)
  | some g1 =>
    rw [hpm] at hmk
    simp only [Option.map_some', Option.some.injEq] at hmk
    subst hmk
    exact rect_setCellVals
      ((placeMinesGo_props stream [] _ hpm).2.2.2
        (rect_initGame rows cols mines))

/-- Claim C6 core: after construction every non-mine cell stores exactly
its Moore-neighbourhood mine count. -/
theorem mkGame_adjacency {rows cols mines : Nat} {stream : List (Nat × Nat)}
    {g : Game} (hmk : mkGame rows cols mines stream = some g)
    {r c : Nat} {cell : Cell} (hc : cellAt g r c = some cell)
    (hm : cell.isMine = false) :
    cell.adjMineCount = some (mooreMineCount g r c) := by
  unfold mkGame at hmk
  cases hpm : placeMines (initGame rows cols mines) stream with
  | none => rw [hpm] at hmk; exact absurd hmk (by simp)
  | some g1 =>
    rw [hpm] at hmk
    simp only [Option.map_some', Option.some.injEq] at hmk
    subst hmk
    have hrect1 : rect g1 :=
      (placeMinesGo_props stream [] _ hpm).2.2.2
        (rect_initGame rows cols mines)
    rw [cellAt_setCellVals] at hc
    cases hc0 : cellAt g1 r c with
    | none => rw [hc0] at hc; exact absurd hc (by simp)
    | some cell0 =>
      rw [hc0] at hc
      simp only [Option.map_some', Option.some.injEq] at hc
      cases hm0 : cell0.isMine with
      | true =>
        rw [hm0, if_pos rfl] at hc
        subst hc
        rw [hm0] at hm
        exact absurd hm (by simp)
      | false =>
        rw [hm0] at hc
        simp only [Bool.false_eq_true, if_false] at hc
        subst hc
        simp only
        obtain ⟨hr, hcc⟩ := cellAt_bounds hc0 hrect1
        have hnm : mineAtI g1 (r : Int) (c : Int) = false := by
          unfold mineAtI
          rw [intGet_natCast g1 r c, hc0]
          exact hm0
        rw [checkAdjacentMines_eq_moore g1 (hrect1.1) r c hr hcc hnm]
        rw [mooreMineCount_setCellVals]

/-!  Wrappers for the flood-fill claims.  -/

theorem nineAround_eq_map (r c : Nat) :
    nineAround r c =
      mooreOffsets.map fun d => ((r : Int) + d.1, (c : Int) + d.2) := by
  simp [nineAround, mooreOffsets, Int.sub_eq_add_neg]

theorem countsCorrect_zero_nbrs {g : Game} (hcc : countsCorrect g) :
    ∀ x : Nat × Nat, adjAt g x = some 0 →
      ∀ ij ∈ nineAround x.1 x.2, mineAtI g ij.1 ij.2 = false := by
  intro x hz ij hij
  unfold adjAt at hz
  cases hc : cellAt g x.1 x.2 with
  | none => rw [hc] at hz; exact absurd hz (by simp)
  | some cell =>
    rw [hc] at hz
    have hz2 : cell.adjMineCount = some 0 := hz
    cases hm : cell.isMine with
    | true =>
      have := (hcc x.1 x.2 cell hc).1 hm
      rw [this] at hz2
      exact absurd hz2 (by simp)
    | false =>
      have hmo := (hcc x.1 x.2 cell hc).2 hm
      rw [hmo] at hz2
      simp only [Option.some.injEq] at hz2
      have hz := hz2
      unfold mooreMineCount at hz
      have hfilter := List.length_eq_zero.mp hz
      rw [nineAround_eq_map] at hij
      rw [List.mem_map] at hij
      obtain ⟨d, hd, rfl⟩ := hij
      have := List.filter_eq_nil.mp hfilter d hd
      simpa using this

theorem countsCorrect_nonmine_adj {g : Game} (hcc : countsCorrect g) :
    ∀ x : Nat × Nat, hasCell g x → mineAt g x = false →
      adjAt g x ≠ none := by
  intro x hs hm
  unfold hasCell at hs
  obtain ⟨cell, hc⟩ := Option.isSome_iff_exists.mp hs
  unfold mineAt at hm
  rw [hc] at hm
  have hm2 : cell.isMine = false := hm
  unfold adjAt
  rw [hc]
  show cell.adjMineCount ≠ none
  rw [(hcc x.1 x.2 cell hc).2 hm2]
  simp

/-- The flood fill never opens a mine when the stored counts are correct
and the seed is not a mine. -/
theorem floodFill_no_mine {fuel : Nat} {g : Game} {s : Nat × Nat}
    {scell : Cell} (hcc : countsCorrect g)
    (hcell : cellAt g s.1 s.2 = some scell) (hsm : scell.isMine = false)
    {g' : Game} (hrun : ffGo fuel g [s] = some g') :
    ∀ x, mineAt g x = true → openAt g' x = openAt g x := by
  apply ffGo_mines fuel [s] g _ (countsCorrect_zero_nbrs hcc)
    (countsCorrect_nonmine_adj hcc) hrun
  intro x hx
  rw [List.mem_singleton] at hx
  subst hx
  unfold mineAt
  rw [hcell]
  exact hsm

/-- On a flag-free board, a fill seeded at an open zero cell whose
zero-component is otherwise closed terminates and opens the whole
component together with its border. -/
theorem floodFill_completes {fuel : Nat} {g : Game} {s : Nat × Nat}
    {scell : Cell} (hnf : noFlags g)
    (hcell : cellAt g s.1 s.2 = some scell) (hopen : scell.isOpen = true)
    (hcomp : ∀ x, ZReach g s x → zeroAt g x → x ≠ s → openAt g x = false)
    (hfuel : unopenedCount g + 1 < fuel) :
    ∃ g', ffGo fuel g [s] = some g' ∧
      ∀ x, ZReach g s x → openAt g' x = true := by
  obtain ⟨g', hrun, hk, hinv⟩ := ffGo_master g s fuel g [s] hnf
    (fun _ => rfl) (fun _ _ => rfl)
    (by
      intro x hx
      rw [List.mem_singleton] at hx
      subst hx
      rw [hcell]
      rfl)
    (by simpa using hfuel)
    (by
      intro x hz hz0 hxopen
      by_cases hxs : x = s
      · subst hxs
        exact Or.inl (List.mem_singleton.mpr rfl)
      · rw [hcomp x hz hz0 hxs] at hxopen
        exact absurd hxopen (by simp))
  refine ⟨g', hrun, ?_⟩
  intro x hzx
  induction hzx with
  | refl =>
    apply hk.2.2.2.2
    rw [openAt_def hcell]
    exact hopen
  | step hzx1 hz0 hadj hy ih =>
    exact hinv _ hzx1 hz0 ih _ hadj hy

/-!  Idempotence machinery for re-clicking an open cell.  -/

theorem list_set_self {α : Type} :
    ∀ (l : List α) (n : Nat) (a : α), l[n]? = some a → l.set n a = l := by
  intro l
  induction l with
  | nil => intro n a h; simp at h
  | cons hd t ih =>
    intro n a h
    cases n with
    | zero => simp at h; subst h; rfl
    | succ n =>
      simp only [List.getElem?_cons_succ] at h
      simp only [List.set_cons_succ, ih n a h]

theorem setCellG_self {g : Game} {r c : Nat} {cell : Cell}
    (hc : cellAt g r c = some cell) : setCellG g r c cell = g := by
  obtain ⟨row, hb, hrow⟩ := cellAt_elim hc
  unfold setCellG setCellB
  rw [hb]
  show ({ g with board := g.board.set r (row.set c cell) } : Game) = g
  rw [list_set_self row c cell hrow, list_set_self g.board r row hb]

theorem cell_upd_self {cell : Cell} (ho : cell.isOpen = true)
    (hcss : cell.cssClosed = false) :
    ({ cell with isOpen := true, cssClosed := false } : Cell) = cell := by
  obtain ⟨a, b, o, d, e, f⟩ := cell
  simp only at ho hcss
  rw [ho, hcss]

theorem game_ui_self {g : Game} (hface : g.face = Face.smile)
    (hrun : g.isRunning = true) :
    ({ g with face := Face.smile, isRunning := true } : Game) = g := by
  obtain ⟨a, b, o, d, e, f, h⟩ := g
  simp only at hface hrun
  rw [hface, hrun]

/-- Re-clicking an already-open, unflagged, non-mine cell with a positive
stored count changes nothing at all. -/
theorem click_open_positive_noop (fuel : Nat) {g : Game} {r c : Nat}
    {cell : Cell} {k : Nat} (hg : GoodState g)
    (hface : g.face = Face.smile) (hrun : g.isRunning = true)
    (hc : cellAt g r c = some cell) (ho : cell.isOpen = true)
    (hf : cell.isFlagged = false) (hm : cell.isMine = false)
    (ha : cell.adjMineCount = some k) (hk : 0 < k) :
    clickCell fuel g r c = some g := by
  cases hnc : cell.noClick with
  | true => exact clickCell_noClick fuel hc hnc
  | false =>
    rw [clickCell_eq fuel hc hnc hf ho, game_ui_self hface hrun]
    have hbeq : (cell.adjMineCount == some 0) = false := by
      rw [ha]
      simp
      omega
    rw [soc_pos fuel hc hf hm hbeq]
    have hcss : cell.cssClosed = false := by
      have := (goodState_cell hg hc).2
      rw [this, ho]
      rfl
    have hquiet : setOpenQuiet g r c = g := by
      rw [setOpenQuiet_eq_upd hc hf, cell_upd_self ho hcss,
        setCellG_self hc]
    rw [hquiet, checkWin_false_of_goodState hg]
    simp

/-!  The frozen terminal state: `onGameOver` marks every cell `no-click`,
after which no player action changes anything.  -/

def allNoClick (g : Game) : Prop :=
  ∀ r c cell, cellAt g r c = some cell → cell.noClick = true

theorem allNoClick_onGameOver (g : Game) : allNoClick (onGameOver g) := by
  intro r c cell hc
  rw [cellAt_onGameOver] at hc
  cases h : cellAt g r c with
  | none => rw [h] at hc; exact absurd hc (by simp)
  | some cell0 =>
    rw [h, Option.map_some'] at hc
    injection hc with hc2
    rw [← hc2]

theorem chordCell_noClick {g : Game} {r c : Nat} {cell : Cell} (fuel : Nat)
    (h : cellAt g r c = some cell) (hnc : cell.noClick = true) :
    chordCell fuel g r c = some g := by
  unfold chordCell
  rw [h]
  simp [hnc]

theorem chordCell_missing {g : Game} {r c : Nat} (fuel : Nat)
    (h : cellAt g r c = none) : chordCell fuel g r c = some g := by
  unfold chordCell
  rw [h]

theorem flagCell_noClick {g : Game} {r c : Nat} {cell : Cell}
    (h : cellAt g r c = some cell) (hnc : cell.noClick = true) :
    flagCell g r c = g := by
  unfold flagCell
  rw [h]
  simp [hnc]

theorem flagCell_missing {g : Game} {r c : Nat}
    (h : cellAt g r c = none) : flagCell g r c = g := by
  unfold flagCell
  rw [h]

theorem dispatch_frozen (fuel : Nat) {g : Game} (hnc : allNoClick g)
    (a : PAct) : dispatch fuel g a = some g := by
  cases a with
  | lclick r c =>
    show clickCell fuel g r c = some g
    cases h : cellAt g r c with
    | none => exact clickCell_missing fuel h
    | some cell => exact clickCell_noClick fuel h (hnc r c cell h)
  | mclick r c =>
    show chordCell fuel g r c = some g
    cases h : cellAt g r c with
    | none => exact chordCell_missing fuel h
    | some cell => exact chordCell_noClick fuel h (hnc r c cell h)
  | rclick r c =>
    show some (flagCell g r c) = some g
    cases h : cellAt g r c with
    | none => rw [flagCell_missing h]
    | some cell => rw [flagCell_noClick h (hnc r c cell h)]

theorem runActs_frozen (fuel : Nat) {g : Game} (hnc : allNoClick g) :
    ∀ acts : List PAct, runActs fuel acts g = some g := by
  intro acts
  induction acts with
  | nil => rfl
  | cons a as ih =>
    show (match dispatch fuel g a with
          | none => none
          | some g1 => runActs fuel as g1) = some g
    rw [dispatch_frozen fuel hnc a]
    exact ih

/-!  A concrete board on which the flood fill re-enqueues flagged cells
forever: 1×3, no mines, cells (0,1) and (0,2) flagged, then a left click
on the zero-count cell (0,0).  -/

def gameB0 : Game := (mkGame 1 3 0 []).getD (initGame 1 3 0)

def gBugPre : Game := flagCell (flagCell gameB0 0 1) 0 2

def cBug00 : Cell :=
  { isMine := false, adjMineCount := some 0, isOpen := false,
    isFlagged := false, cssClosed := true, noClick := false }

def gBug1 : Game :=
  { setCellG gBugPre 0 0 { cBug00 with cssClosed := false } with
    face := Face.smile, isRunning := true }

def gBugFF : Game := setOpenQuiet gBug1 0 0

theorem ffGo_bug_cycle :
    ∀ n, ffGo n gBugFF [(0, 1)] = none ∧ ffGo n gBugFF [(0, 2)] = none := by
  intro n
  induction n with
  | zero => exact ⟨rfl, rfl⟩
  | succ n ih =>
    refine ⟨?_, ?_⟩
    · show ffGo n gBugFF [(0, 2)] = none
      exact ih.2
    · show ffGo n gBugFF [(0, 1)] = none
      exact ih.1

theorem ffGo_bug_seed (fuel : Nat) : ffGo fuel gBugFF [(0, 0)] = none := by
  cases fuel with
  | zero => rfl
  | succ n =>
    show ffGo n gBugFF [(0, 1)] = none
    exact (ffGo_bug_cycle n).1

theorem clickCell_bug (fuel : Nat) : clickCell fuel gBugPre 0 0 = none := by
  have hc : cellAt gBugPre 0 0 = some cBug00 := by decide
  rw [clickCell_eq_closed fuel hc (by decide) (by decide) (by decide)]
  show setOpenClicked fuel gBug1 0 0 = none
  have hc1 : cellAt gBug1 0 0 = some { cBug00 with cssClosed := false } := by
    decide
  rw [soc_zero fuel hc1 (by decide) (by decide) (by decide)]
  have hff : floodFillCells fuel (setOpenQuiet gBug1 0 0) 0 0 = none :=
    ffGo_bug_seed fuel
  rw [hff]

/-!  Converters from decidable board-membership facts to the
coordinate-quantified invariants, used to instantiate the general
theorems on concrete games.  -/

theorem mem_allCoords_of_cellAt {g : Game} {r c : Nat} {cell : Cell}
    (h : cellAt g r c = some cell) : (r, c) ∈ allCoords g := by
  obtain ⟨row, hb, hrow⟩ := cellAt_elim h
  unfold allCoords
  rw [List.mem_flatMap]
  refine ⟨r, ?_, ?_⟩
  · rw [List.mem_range]
    exact (List.getElem?_eq_some.mp hb).1
  · rw [List.mem_map]
    refine ⟨c, ?_, rfl⟩
    rw [hb, List.mem_range]
    exact (List.getElem?_eq_some.mp hrow).1

theorem noFlags_of_board {g : Game}
    (h : ∀ row ∈ g.board, ∀ cell ∈ row, cell.isFlagged = false) :
    noFlags g := by
  intro x
  cases hc : cellAt g x.1 x.2 with
  | none => unfold flagAt; rw [hc]
  | some cell =>
    obtain ⟨row, hb, hrow⟩ := cellAt_elim hc
    obtain ⟨hlt1, hget1⟩ := List.getElem?_eq_some.mp hb
    obtain ⟨hlt2, hget2⟩ := List.getElem?_eq_some.mp hrow
    rw [flagAt_def hc]
    exact h row (hget1 ▸ List.getElem_mem hlt1) cell
      (hget2 ▸ List.getElem_mem hlt2)

/-- Decidable per-coordinate check that the stored count is correct. -/
def ccCellOK (g : Game) (x : Nat × Nat) : Bool :=
  match cellAt g x.1 x.2 with
  | none => true
  | some cell =>
    if cell.isMine then cell.adjMineCount == none
    else cell.adjMineCount == some (mooreMineCount g x.1 x.2)

theorem countsCorrect_of_all {g : Game}
    (h : ∀ x ∈ allCoords g, ccCellOK g x = true) : countsCorrect g := by
  intro r c cell hc
  have hx := h (r, c) (mem_allCoords_of_cellAt hc)
  have hx2 : (match cellAt g r c with
              | none => true
              | some cell =>
                if cell.isMine then cell.adjMineCount == none
                else cell.adjMineCount == some (mooreMineCount g r c)) =
      true := hx
  rw [hc] at hx2
  have hx3 : (if cell.isMine then cell.adjMineCount == none
              else cell.adjMineCount == some (mooreMineCount g r c)) =
      true := hx2
  constructor
  · intro hm
    rw [hm, if_pos rfl] at hx3
    exact eq_of_beq hx3
  · intro hm
    rw [hm] at hx3
    simp only [Bool.false_eq_true, if_false] at hx3
    exact eq_of_beq hx3

theorem open_only_seed {g : Game} {s : Nat × Nat}
    (h : ∀ x ∈ allCoords g, x = s ∨ openAt g x = false) :
    ∀ x, x ≠ s → openAt g x = false := by
  intro x hne
  cases hc : cellAt g x.1 x.2 with
  | none => unfold openAt; rw [hc]
  | some cell =>
    rcases h x (mem_allCoords_of_cellAt hc) with rfl | hf
    · exact absurd rfl hne
    · exact hf

instance (g : Game) : Decidable (GoodState g) := by
  unfold GoodState; infer_instance

instance (g : Game) (x : Nat × Nat) : Decidable (zeroAt g x) := by
  unfold zeroAt; infer_instance

instance (g : Game) : Decidable (rect g) := by
  unfold rect; infer_instance

instance (g : Game) (x : Nat × Nat) : Decidable (hasCell g x) := by
  unfold hasCell; infer_instance

/-!  Concrete games for the witnesses and counterexamples.  -/

def game12 : Game := (mkGame 1 2 1 [(0, 0)]).getD (initGame 1 2 1)

def game12b : Game := (clickCell 9 game12 0 1).getD game12

def cMine00 : Cell :=
  { isMine := true, adjMineCount := none, isOpen := false,
    isFlagged := false, cssClosed := true, noClick := false }

def c12b : Cell :=
  { isMine := false, adjMineCount := some 1, isOpen := true,
    isFlagged := false, cssClosed := false, noClick := false }

def game11 : Game := (mkGame 1 1 1 [(0, 0)]).getD (initGame 1 1 1)

def gameA0 : Game := (mkGame 1 2 0 []).getD (initGame 1 2 0)

def gameW5 : Game := setOpenQuiet gameA0 0 0

def cW5 : Cell :=
  { isMine := false, adjMineCount := some 0, isOpen := true,
    isFlagged := false, cssClosed := false, noClick := false }

def game10b : Game := flagCell gameA0 0 1

def game10c : Game := (clickCell 9 game10b 0 0).getD game10b

def game10d : Game := flagCell game10c 0 1

def game10e : Game := (clickCell 9 game10d 0 0).getD game10d

def gameC6 : Game := (mkGame 2 2 1 [(0, 0)]).getD (initGame 2 2 1)

def c6cell : Cell :=
  { isMine := false, adjMineCount := some 1, isOpen := false,
    isFlagged := false, cssClosed := true, noClick := false }

/-- A winning action sequence on the 2×2 one-mine board: flag the mine,
open the three safe cells, left-press the flagged mine (the mousedown
strips its `closed` token while it stays flagged and closed), then
re-click an open numbered cell so that its win check fires. -/
def wonActs : List PAct :=
  [PAct.rclick 0 0, PAct.lclick 0 1, PAct.lclick 1 0, PAct.lclick 1 1,
   PAct.lclick 0 0, PAct.lclick 1 1]

def gameWon : Game := (runActs 9 wonActs gameC6).getD gameC6

def opsC9 : List EOp := [EOp.flagT 0 0, EOp.openC 0 1]

def gameC9 : Game := (runEOps 9 opsC9 game12).getD game12

/-!  The ten claims.  -/

/-- C1 (amended): the loss half of the claim holds — clicking any
unflagged, clickable mine cell ends the session with status `Lost` — but
the win half does not.  Winning DOES additionally require the flag
count: whenever `checkWin` fires, `numFlags` equals `mineCount` and the
document-wide count of `closed` elements (the closed board cells plus
the always-closed restart button, hence the `+ 1`) equals `mineCount`
(first conjunct).  In every state where flagged cells keep their
`closed` token, the token tracks `isOpen` and the flag counter is exact,
`checkWin` is `false` (second conjunct) — so opening every non-mine cell
does not yield `Won` (see the counterexample).  `Won` is nevertheless
reachable: pressing the flagged mine strips its `closed` token while it
stays flagged, after which re-clicking an open numbered cell fires the
win check (last two conjuncts, a concrete six-action sequence). -/
theorem C1_win_and_loss {g : Game} {r c : Nat} {cell : Cell}
    (fuel : Nat) (hg : GoodState g) (hc : cellAt g r c = some cell)
    (hm : cell.isMine = true) (hf : cell.isFlagged = false)
    (hnc : cell.noClick = false) :
    (∀ g2 : Game, checkWin g2 = true →
      g2.numFlags = (g2.mines : Int) ∧ closedCount g2 + 1 = g2.mines) ∧
    checkWin g = false ∧
    (∃ g', clickCell fuel g r c = some g' ∧ status g' = Status.Lost) ∧
    runActs 9 wonActs gameC6 = some gameWon ∧
    status gameWon = Status.Won := by
  refine ⟨?_, checkWin_false_of_goodState hg,
    click_mine_lost fuel hg hc hm hf hnc, by decide, by decide⟩
  intro g2 h
  unfold checkWin at h
  simp only [Bool.and_eq_true, beq_iff_eq] at h
  exact ⟨h.2, h.1⟩

/-- Witness for C1: the 1×2 board with one mine at (0,0). -/
theorem C1_win_and_loss_witness :
    (∀ g2 : Game, checkWin g2 = true →
      g2.numFlags = (g2.mines : Int) ∧ closedCount g2 + 1 = g2.mines) ∧
    checkWin game12 = false ∧
    (∃ g', clickCell 9 game12 0 0 = some g' ∧ status g' = Status.Lost) ∧
    runActs 9 wonActs gameC6 = some gameWon ∧
    status gameWon = Status.Won :=
  @C1_win_and_loss game12 0 0 cMine00 9 (by decide) (by decide)
    (by decide) (by decide) (by decide)

/-- Counterexample to C1 as stated: on the 1×2 board with one mine,
opening the only non-mine cell leaves exactly `mines` cells unopened, yet
the status is `Running`, not `Won`. -/
theorem C1_counterexample :
    clickCell 9 game12 0 1 = some game12b ∧
    unopenedCount game12b = game12b.mines ∧
    mineAt game12b (0, 0) = true ∧ openAt game12b (0, 1) = true ∧
    status game12b = Status.Running ∧ status game12b ≠ Status.Won := by
  decide

/-- C2 (amended): the constructor performs no validation at all — there
is no configuration check anywhere, and construction succeeds exactly
when the mine-placement loop completes, whatever the values of `rows`,
`cols` and `mineCount`. -/
theorem C2_no_validation (rows cols mines : Nat)
    (stream : List (Nat × Nat)) :
    (mkGame rows cols mines stream).isSome =
      (placeMines (initGame rows cols mines) stream).isSome := by
  unfold mkGame
  cases placeMines (initGame rows cols mines) stream <;> rfl

/-- Counterexample to C2 as stated: `mineCount = rows*cols` (1×1 board,
one mine) violates the stated constraint, yet construction succeeds and
produces a full session with one mine. -/
theorem C2_counterexample :
    ¬ validConfig 1 1 1 ∧ mkGame 1 1 1 [(0, 0)] = some game11 ∧
    countMines game11 = 1 := by
  decide

/-- C3: after game over — the only way the session reaches the terminal
`Won` or `Lost` status — every cell carries the `no-click` token, so
every further player action (left click, chord, right click) is a no-op:
any sequence of further actions leaves the whole game state, in
particular every cell's `isOpen` and `isFlagged`, exactly as it was. -/
theorem C3_terminal_frozen (g : Game) (fuel : Nat) (acts : List PAct) :
    (status (onGameOver g) = Status.Won ∨
      status (onGameOver g) = Status.Lost) ∧
    runActs fuel acts (onGameOver g) = some (onGameOver g) := by
  constructor
  · rw [status_onGameOver]
    by_cases h : checkWin g
    · rw [if_pos h]; left; rfl
    · rw [if_neg h]; right; rfl
  · exact runActs_frozen fuel (allNoClick_onGameOver g) acts

/-- C4 refuted (code bug): queued neighbours are NOT marked opened at
enqueue time — `setOpen()` returns early on a flagged cell — so a flagged
neighbour of the zero region is re-enqueued forever.  On the 1×3 zero-mine
board with (0,1) and (0,2) flagged, clicking (0,0) never terminates: for
every fuel bound (in particular `rows*cols = 3`) the flood fill, and with
it the whole click, fails to complete. -/
theorem C4_flood_fill_diverges (fuel : Nat) :
    floodFillCells fuel gBugFF 0 0 = none ∧
    clickCell fuel gBugPre 0 0 = none :=
  ⟨ffGo_bug_seed fuel, clickCell_bug fuel⟩

/-- C5 (amended): the flood fill never opens a mine cell (first
conjunct, given correct stored counts), and on a flag-free board a fill
seeded at an open zero cell whose component is otherwise closed
terminates and opens the whole connected zero component together with
its border (second conjunct).  With flags present the all-or-none part
fails (see the counterexample) and the fill may not terminate at all. -/
theorem C5_flood_fill {fuel : Nat} {g : Game} {s : Nat × Nat}
    {scell : Cell} (hcc : countsCorrect g) (hnf : noFlags g)
    (hcell : cellAt g s.1 s.2 = some scell) (hopen : scell.isOpen = true)
    (hsm : scell.isMine = false)
    (hcomp : ∀ x, ZReach g s x → zeroAt g x → x ≠ s → openAt g x = false)
    (hfuel : unopenedCount g + 1 < fuel) :
    (∀ g', ffGo fuel g [s] = some g' →
      ∀ x, mineAt g x = true → openAt g' x = openAt g x) ∧
    ∃ g', ffGo fuel g [s] = some g' ∧
      ∀ x, ZReach g s x → openAt g' x = true := by
  constructor
  · intro g' hrun
    exact floodFill_no_mine hcc hcell hsm hrun
  · exact floodFill_completes hnf hcell hopen hcomp hfuel

/-- Witness for C5: the flag-free 1×2 zero-mine board, seed (0,0) just
opened. -/
theorem C5_flood_fill_witness :
    (∀ g', ffGo 9 gameW5 [(0, 0)] = some g' →
      ∀ x, mineAt gameW5 x = true → openAt g' x = openAt gameW5 x) ∧
    ∃ g', ffGo 9 gameW5 [(0, 0)] = some g' ∧
      ∀ x, ZReach gameW5 (0, 0) x → openAt g' x = true :=
  @C5_flood_fill 9 gameW5 (0, 0) cW5 (countsCorrect_of_all (by decide))
    (noFlags_of_board (by decide)) (by decide) (by decide) (by decide)
    (fun x _ _ hne => open_only_seed (by decide) x hne) (by decide)

/-- Counterexample to C5 as stated: on the 1×2 zero-mine board with (0,1)
flagged, the fill seeded by clicking (0,0) terminates with the zero
component {(0,0), (0,1)} partially open — (0,0) open, its adjacent
zero-count non-mine neighbour (0,1) still closed. -/
theorem C5_counterexample :
    clickCell 9 game10b 0 0 = some game10c ∧
    zeroAt game10c (0, 0) ∧ zeroAt game10c (0, 1) ∧
    Adjacent (0, 0) (0, 1) ∧ mineAt game10c (0, 1) = false ∧
    openAt game10c (0, 0) = true ∧ openAt game10c (0, 1) = false := by
  decide

/-- C6: after construction (`placeMines` then `setCellVals`), every
non-mine cell's stored `adjMineCount` equals the exact number of mines
among its up-to-eight in-bounds Moore neighbours, recomputed
exhaustively. -/
theorem C6_adjacency {rows cols mines : Nat} {stream : List (Nat × Nat)}
    {g : Game} (hmk : mkGame rows cols mines stream = some g)
    {r c : Nat} {cell : Cell} (hc : cellAt g r c = some cell)
    (hm : cell.isMine = false) :
    cell.adjMineCount = some (mooreMineCount g r c) :=
  mkGame_adjacency hmk hc hm

/-- Witness for C6: the 2×2 board with a mine at (0,0); cell (1,1) stores
count 1. -/
theorem C6_adjacency_witness :
    c6cell.adjMineCount = some (mooreMineCount gameC6 1 1) :=
  @C6_adjacency 2 2 1 [(0, 0)] gameC6 (by decide) 1 1 c6cell (by decide)
    (by decide)

/-- C7: for every valid configuration, a completed construction marks
exactly `mineCount` cells as mines (the rejection-sampling loop only
advances on distinct fresh coordinates). -/
theorem C7_mine_count {rows cols mines : Nat} {stream : List (Nat × Nat)}
    {g : Game} (hvalid : validConfig rows cols mines)
    (hmk : mkGame rows cols mines stream = some g) :
    countMines g = mines :=
  mkGame_mine_count hmk

/-- Witness for C7: the 2×2 board with one mine. -/
theorem C7_mine_count_witness : countMines gameC6 = 1 :=
  @C7_mine_count 2 2 1 [(0, 0)] gameC6 (by decide) (by decide)

/-- C8: a chorded open is exactly the identity unless the source cell is
open, unflagged, and its flagged-neighbour count equals its stored
`adjMineCount`; when the precondition holds and the loop completes, every
unflagged in-bounds Moore neighbour of the source ends up open. -/
theorem C8_chord (fuel : Nat) (g : Game) (r c : Nat) (hrect : rect g) :
    (canOpenAdjacentCells g r c = false →
      openAdjacentCells fuel g r c = some g) ∧
    (∀ g', openAdjacentCells fuel g r c = some g' →
      canOpenAdjacentCells g r c = true →
      ∀ y, Adjacent (r, c) y → hasCell g y → flagAt g y = false →
        openAt g' y = true) := by
  constructor
  · intro hcan
    unfold openAdjacentCells
    simp [hcan]
  · intro g' hrun hcan y hadj hy hflag
    unfold openAdjacentCells at hrun
    rw [hcan] at hrun
    simp only [if_true] at hrun
    have hy2 : (cellAt g y.1 y.2).isSome = true := hy
    obtain ⟨cell, hcell⟩ := Option.isSome_iff_exists.mp hy2
    obtain ⟨hr, hc2⟩ := cellAt_bounds hcell hrect
    have hmem := adjacent_mem_around3x3 hadj
    have hopen := chordFold_opens (around3x3 (r : Int) (c : Int)) hrun
      ((y.1 : Int), (y.2 : Int)) hmem ⟨by omega, by omega⟩
      ⟨by omega, by omega⟩ (by simpa using hy2) (by simpa using hflag)
    simpa using hopen

/-- Witness for C8: on the fresh 2×2 one-mine board the source cell
(1,1) is closed, so the precondition fails and the chord is the
identity. -/
theorem C8_chord_witness : openAdjacentCells 9 gameC6 1 1 = some gameC6 :=
  (C8_chord 9 gameC6 1 1 (by decide)).1 (by decide)

/-- C9: the never-open-and-flagged invariant is preserved by every
sequence of engine operations (player open, flood fill, chord, flag
toggle, reveal-all-mines): `setFlag` is a no-op on an open cell and every
opening path is a no-op on a flagged cell. -/
theorem C9_open_flag_invariant (fuel : Nat) (ops : List EOp)
    {g g' : Game} (h : openFlagInv g)
    (hrun : runEOps fuel ops g = some g') : openFlagInv g' :=
  inv_runEOps ops h hrun

/-- Witness for C9: flag (0,0) then open (0,1) on the 1×2 one-mine
board. -/
theorem C9_open_flag_invariant_witness : openFlagInv gameC9 :=
  @C9_open_flag_invariant 9 opsC9 game12 gameC9 (inv_of_board (by decide))
    (by decide)

/-- C10 (amended): re-opening an already-open, unflagged, non-mine cell
with a positive stored count changes nothing at all — the click returns
the state unchanged.  Idempotence fails for open zero-count cells: the
flood fill re-runs and can open cells that were flagged during the first
fill and unflagged since (see the counterexample). -/
theorem C10_idempotent (fuel : Nat) {g : Game} {r c : Nat} {cell : Cell}
    {k : Nat} (hg : GoodState g) (hface : g.face = Face.smile)
    (hrun : g.isRunning = true) (hc : cellAt g r c = some cell)
    (ho : cell.isOpen = true) (hf : cell.isFlagged = false)
    (hm : cell.isMine = false) (ha : cell.adjMineCount = some k)
    (hk : 0 < k) :
    clickCell fuel g r c = some g :=
  click_open_positive_noop fuel hg hface hrun hc ho hf hm ha hk

/-- Witness for C10: re-clicking the open count-1 cell of the 1×2 board
returns the state unchanged. -/
theorem C10_idempotent_witness : clickCell 9 game12b 0 1 = some game12b :=
  @C10_idempotent 9 game12b 0 1 c12b 1 (by decide) (by decide) (by decide)
    (by decide) (by decide) (by decide) (by decide) (by decide) (by decide)

/-- Counterexample to C10 as stated: flag (0,1), click (0,0), unflag
(0,1); now (0,0) is open and re-clicking it opens (0,1) — the second
open of an already-open cell changes the state. -/
theorem C10_counterexample :
    openAt game10d (0, 0) = true ∧
    clickCell 9 game10d 0 0 = some game10e ∧
    openAt game10d (0, 1) = false ∧ openAt game10e (0, 1) = true ∧
    game10e ≠ game10d := by
  decide

end Mynesweeper
